import Mathlib

/-!
The program content-formatter.c: a shallow embedding and its verified properties.

The program reads a text file, removes the bytes `*` and `"`, splits the text
into trimmed non-blank lines, strips an old numbering and a title from each line
and writes the lines back as a numbered list.

Memory model:

* A byte is a `Nat` (the value of an `unsigned char`).
* A buffer (`char*` to the start of an allocation) is the `List Nat` of its bytes.
  A pointer into a buffer is a `Nat` index.  `peek buf i` is `buf[i]`; an index
  outside the list reads as `0`, the string terminator.
* The C string that starts at index `i` of `buf` is `cstr_at buf i`: the bytes
  from `i` up to the first `0`.
* `malloc`/`realloc` outcomes are inputs of the model (`true` = a block is
  returned).  A list of outcomes is consumed one call at a time; once it is
  used up every further call succeeds.
* `int`, `long` and `size_t` values are unbounded `Int`/`Nat`: the program has
  no wrap-around arithmetic, and signed overflow would need more than `2^31`
  lines.
-/

namespace ContentFormatter

/-! ## Bytes and C library primitives -/

/-- The `isspace` of `<ctype.h>` in the "C" locale: space, `\t`, `\n`, `\v`, `\f`, `\r`. -/
def isspace (c : Nat) : Bool := c == 32 || (9 ≤ c && c ≤ 13)

/-- The `isdigit` of `<ctype.h>`: `'0'` to `'9'`. -/
def isdigit (c : Nat) : Bool := 48 ≤ c && c ≤ 57

/-- The bytes of an ASCII string literal. -/
def ascii (s : String) : List Nat := s.toList.map Char.toNat

/-- Reading `buf[i]`. -/
def peek (buf : List Nat) (i : Nat) : Nat := buf.getD i 0

/-- The C string seen through a pointer, as a list: the bytes before the first `0`. -/
def cstr (s : List Nat) : List Nat := s.takeWhile (fun c => c != 0)

/-- The C string that starts at index `i` of `buf`. -/
def cstr_at (buf : List Nat) (i : Nat) : List Nat := cstr (buf.drop i)

/-- The `strlen` of the string seen through a pointer. -/
def strlen_from : List Nat → Nat
  | [] => 0
  | c :: rest => if c = 0 then 0 else strlen_from rest + 1

/-- The call `strlen(buf + i)`. -/
def strlen (buf : List Nat) (i : Nat) : Nat := strlen_from (buf.drop i)

/-- The `strchr` of the string seen through a pointer: the offset of the first `ch`. -/
def strchr_from (ch : Nat) : List Nat → Option Nat
  | [] => if ch = 0 then some 0 else none
  | c :: rest =>
    if c = ch then some 0
    else if c = 0 then none
    else (strchr_from ch rest).map (fun k => k + 1)

/-- The call `strchr(buf + i, ch)`: the index of the first `ch`, `none` for `NULL`. -/
def strchr (buf : List Nat) (i : Nat) (ch : Nat) : Option Nat :=
  (strchr_from ch (buf.drop i)).map (fun k => i + k)

/-- The loop `while (*p && test(*p)) p++` on the string seen through `p`:
the number of steps taken. -/
def skip_from (test : Nat → Bool) : List Nat → Nat
  | [] => 0
  | c :: rest => if c ≠ 0 ∧ test c = true then skip_from test rest + 1 else 0

/-- The loop `while (buf[i] && test(buf[i])) i++`: the final index. -/
def skip_while (test : Nat → Bool) (buf : List Nat) (i : Nat) : Nat :=
  i + skip_from test (buf.drop i)

/-- Reading `n` bytes from index `src` on. -/
def read_bytes (buf : List Nat) (src : Nat) : Nat → List Nat
  | 0 => []
  | n + 1 => peek buf src :: read_bytes buf (src + 1) n

/-- Storing the bytes `data` from index `dst` on, one byte after the other.
A store outside the buffer is undefined in C; the model drops it. -/
def write_bytes (buf : List Nat) (dst : Nat) : List Nat → List Nat
  | [] => buf
  | b :: bs => write_bytes (buf.set dst b) (dst + 1) bs

/-- The call `memcpy(buf + dst, from + src, n)` between two different buffers. -/
def memcpy (buf : List Nat) (dst : Nat) (source : List Nat) (src n : Nat) : List Nat :=
  write_bytes buf dst (read_bytes source src n)

/-- The call `memmove(buf + dst, buf + src, n)`: the `n` bytes are read first,
then stored, so that overlapping regions are handled. -/
def memmove (buf : List Nat) (dst src n : Nat) : List Nat :=
  write_bytes buf dst (read_bytes buf src n)

/-- The decimal digits of `n`, most significant first (`fuel` bounds the recursion). -/
def decimal_digits : Nat → Nat → List Nat
  | 0, _ => []
  | fuel + 1, n => if n < 10 then [48 + n] else decimal_digits fuel (n / 10) ++ [48 + n % 10]

/-- What `printf("%d", i)` prints. -/
def print_int : Int → List Nat
  | Int.ofNat n => decimal_digits (n + 1) n
  | Int.negSucc n => 45 :: decimal_digits (n + 2) (n + 1)

/-- The outcome of the next `malloc`/`realloc` call and the outcomes left. -/
def next_alloc : List Bool → Bool × List Bool
  | [] => (true, [])
  | b :: bs => (b, bs)

/-! ## remove_special_chars (lines 10-23) -/

/-- The loop of `remove_special_chars`: `w` is `write_ptr`, `r` is `read_ptr`.
Returns the buffer and `write_ptr` when the loop is left. -/
def remove_special_chars_loop : Nat → List Nat → Nat → Nat → List Nat × Nat
  | 0, buf, w, _ => (buf, w)
  | fuel + 1, buf, w, r =>
    if peek buf r ≠ 0 then
      if peek buf r ≠ 42 ∧ peek buf r ≠ 34 then
        remove_special_chars_loop fuel (buf.set w (peek buf r)) (w + 1) (r + 1)
      else
        remove_special_chars_loop fuel buf w (r + 1)
    else (buf, w)

/-- The function `remove_special_chars(content)`: the buffer after the call.
The read pointer moves one byte per iteration and stops at the terminator, so
`buf.length + 1` iterations are never exceeded. -/
def remove_special_chars (content : List Nat) : List Nat :=
  let st := remove_special_chars_loop (content.length + 1) content 0 0
  st.1.set st.2 0

/-! ## parse_lines (lines 29-90) -/

/-- The loop `while (e > s && isspace(buf[e])) e--` of line 68: the final `e`. -/
def back_while (buf : List Nat) (s : Nat) : Nat → Nat
  | 0 => 0
  | e + 1 => if e + 1 > s ∧ isspace (peek buf (e + 1)) = true then back_while buf s e else e + 1

/-- Lines 58-82 of `parse_lines`: the trimming of the copy `line` of one segment.
Returns the buffer stored in the line array, or `none` when the copy is blank
and freed. -/
def trim_line (line : List Nat) : Option (List Nat) :=
  let line_start := skip_while isspace line 0
  if peek line line_start ≠ 0 then
    let line_end_ptr := back_while line line_start (0 + strlen line 0 - 1)
    let line1 := line.set (line_end_ptr + 1) 0
    let line2 :=
      if line_start ≠ 0 then memmove line1 0 line_start (strlen line1 line_start + 1)
      else line1
    some line2
  else none

/-- Lines 41-43 of `parse_lines`: the pointer `line_end`, at the next `\n` or at the
terminator. -/
def find_line_end (content : List Nat) (pos : Nat) : Nat :=
  match strchr content pos 10 with
  | some e => e
  | none => pos + strlen content pos

/-- The `while` loop of `parse_lines` (lines 39-87).  `pos` is `current_position`,
`lines` the array filled so far (`*line_count` is its length), `allocs` the
outcomes of the coming `malloc` calls.  A failed `malloc` runs `continue`, which
starts the next iteration with `current_position` unchanged. -/
def parse_lines_loop : Nat → List Nat → Int → Nat → List (List Nat) → List Bool →
    List (List Nat)
  | 0, _, _, _, lines, _ => lines
  | fuel + 1, content, max_lines, pos, lines, allocs =>
    if peek content pos ≠ 0 ∧ (lines.length : Int) < max_lines then
      let line_end := find_line_end content pos
      let line_length := line_end - pos
      let next := if peek content line_end = 10 then line_end + 1 else line_end
      if line_length > 0 then
        let a := next_alloc allocs
        if a.1 = false then
          parse_lines_loop fuel content max_lines pos lines a.2
        else
          let line := memcpy (List.replicate (line_length + 1) 0) 0 content pos line_length
          let line := line.set line_length 0
          match trim_line line with
          | some stored => parse_lines_loop fuel content max_lines next (lines ++ [stored]) a.2
          | none => parse_lines_loop fuel content max_lines next lines a.2
      else
        parse_lines_loop fuel content max_lines next lines allocs
    else lines

/-- The function `parse_lines(content, &line_count, max_lines)`: `none` for a
`NULL` result, otherwise the buffers stored in the array, in order
(`line_count` is the length of the list).  `array_ok` is the outcome of the
`malloc` of the array, `allocs` the outcomes of the `malloc` calls of the loop.
An iteration either moves `current_position` forward or uses up one failed
outcome, which bounds the number of iterations. -/
def parse_lines (content : List Nat) (max_lines : Int) (array_ok : Bool)
    (allocs : List Bool) : Option (List (List Nat)) :=
  if array_ok = false then none
  else some (parse_lines_loop (content.length + allocs.length + 1) content max_lines 0 [] allocs)

/-- The variables of the loop of `parse_lines`. -/
structure ScanState where
  /-- The index `current_position`. -/
  pos : Nat
  /-- The lines stored so far. -/
  lines : List (List Nat)
  /-- The outcomes of the coming `malloc` calls. -/
  allocs : List Bool
deriving DecidableEq

/-- One iteration of the `while` loop of `parse_lines` (lines 39-87): `none` when the
loop condition fails, otherwise the variables at the end of the iteration. -/
def parse_lines_step (content : List Nat) (max_lines : Int) (s : ScanState) :
    Option ScanState :=
  if peek content s.pos ≠ 0 ∧ (s.lines.length : Int) < max_lines then
    let line_end := find_line_end content s.pos
    let line_length := line_end - s.pos
    let next := if peek content line_end = 10 then line_end + 1 else line_end
    if line_length > 0 then
      let a := next_alloc s.allocs
      if a.1 = false then
        some ⟨s.pos, s.lines, a.2⟩
      else
        let line := memcpy (List.replicate (line_length + 1) 0) 0 content s.pos line_length
        let line := line.set line_length 0
        match trim_line line with
        | some stored => some ⟨next, s.lines ++ [stored], a.2⟩
        | none => some ⟨next, s.lines, a.2⟩
    else
      some ⟨next, s.lines, s.allocs⟩
  else none

/-- The number of iterations the loop of `parse_lines` makes from the state `s` on,
`none` when it makes more than `fuel`. -/
def parse_lines_iterations : Nat → List Nat → Int → ScanState → Option Nat
  | 0, _, _, _ => none
  | fuel + 1, content, max_lines, s =>
    match parse_lines_step content max_lines s with
    | none => some 0
    | some s2 => (parse_lines_iterations fuel content max_lines s2).map (fun k => k + 1)

/-! ## process_line (lines 96-139) -/

/-- What the format `"%d. %s\n\n"` prints for `line_number` and the string `text`. -/
def format_line (line_number : Int) (text : List Nat) : List Nat :=
  print_int line_number ++ [46, 32] ++ text ++ [10, 10]

/-- The result of one call of `process_line`. -/
structure Processed where
  /-- The bytes of the argument buffer `line` after the call. -/
  line : List Nat
  /-- The returned buffer, `none` for `NULL`. -/
  formatted_line : Option (List Nat)
deriving DecidableEq

/-- Lines 97-124 of `process_line`: the buffer `line` and the pointer `current_pos`
when the number is about to be printed. -/
def strip_line (line : List Nat) : List Nat × Nat :=
  let current_pos := skip_while isspace line 0
  let current_pos := skip_while isdigit line current_pos
  let current_pos := if peek line current_pos = 46 then current_pos + 1 else current_pos
  let current_pos := skip_while isspace line current_pos
  let line := match strchr line current_pos 58 with
    | some colon_position =>
      memmove line current_pos (colon_position + 1) (strlen line (colon_position + 1) + 1)
    | none => line
  let current_pos := skip_while isspace line current_pos
  (line, current_pos)

set_option linter.unusedVariables false in
/-- The function `process_line(line, line_number, max_line_length)`;
`alloc_ok` is the outcome of its `malloc`.  The call `snprintf(buf, size, ...)`
stores at most `size - 1` bytes of the printed text and a terminator. -/
def process_line (line : List Nat) (line_number : Int) (max_line_length : Nat)
    (alloc_ok : Bool) : Processed :=
  let stripped := strip_line line
  let line := stripped.1
  let current_pos := stripped.2
  let number_width := (print_int line_number ++ [46, 32]).length
  let text_length := strlen line current_pos
  let total_length := number_width + text_length + 3
  if alloc_ok = false then ⟨line, none⟩
  else
    let printed := format_line line_number (cstr_at line current_pos)
    let formatted_line := write_bytes (List.replicate total_length 0) 0
      (printed.take (total_length - 1) ++ [0])
    ⟨line, some formatted_line⟩

/-! ## main (lines 144-273) -/

/-- The output buffer of `main` and the two variables that describe it. -/
structure Assembler where
  /-- The bytes of the block `formatted_result` points to. -/
  formatted_result : List Nat
  /-- The write offset. -/
  current_output_position : Nat
  /-- The capacity recorded by `main`. -/
  result_buffer_size : Nat
deriving DecidableEq

/-- The call `realloc(buf, n)` when it succeeds: the old bytes are kept up to
`n`, the new ones are indeterminate (`junk`). -/
def realloc (buf : List Nat) (n : Nat) (junk : Nat) : List Nat :=
  buf.take n ++ List.replicate (n - buf.length) junk

/-- Lines 224-241: appending one formatted line.  `allocs` holds the outcome of
the `realloc` call, which is consumed only when the call is made. -/
def append_line (junk : Nat) (st : Assembler) (formatted_line : List Nat)
    (allocs : List Bool) : Assembler × List Bool :=
  let line_length := strlen formatted_line 0
  if st.current_output_position + line_length < st.result_buffer_size then
    let buf := memcpy st.formatted_result st.current_output_position formatted_line 0 line_length
    let pos := st.current_output_position + line_length
    (⟨buf.set pos 0, pos, st.result_buffer_size⟩, allocs)
  else
    let size := st.current_output_position + line_length + 1024
    let a := next_alloc allocs
    if a.1 = true then
      let new_buffer := realloc st.formatted_result size junk
      let buf := memcpy new_buffer st.current_output_position formatted_line 0 line_length
      let pos := st.current_output_position + line_length
      (⟨buf.set pos 0, pos, size⟩, a.2)
    else
      (⟨st.formatted_result, st.current_output_position, size⟩, a.2)

/-- The `for` loop of lines 220-244 over the line array; `allocs` holds the
outcomes of the `malloc` of each `process_line` call and of each `realloc`
call, in call order. -/
def assemble_loop (junk : Nat) : List (List Nat) → Int → Assembler → List Bool → Assembler
  | [], _, st, _ => st
  | line :: rest, current_number, st, allocs =>
    let a := next_alloc allocs
    let r := process_line line current_number
      (st.result_buffer_size - st.current_output_position) a.1
    match r.formatted_line with
    | some formatted_line =>
      let s := append_line junk st formatted_line a.2
      assemble_loop junk rest (current_number + 1) s.1 s.2
    | none => assemble_loop junk rest (current_number + 1) st a.2

/-- The loop of lines 247-249: `while (pos > 0 && buf[pos - 1] == '\n') pos--`. -/
def strip_newlines (buf : List Nat) : Nat → Nat
  | 0 => 0
  | pos + 1 => if peek buf pos = 10 then strip_newlines buf pos else pos + 1

/-- The loop of lines 187-193: the number of `\n` in the string. -/
def count_newlines : List Nat → Int
  | [] => 0
  | c :: rest => if c = 0 then 0 else (if c = 10 then 1 else 0) + count_newlines rest

/-- Everything one run of `main` depends on. -/
structure Env where
  /-- Whether `fopen(filename, "r")` succeeds. -/
  readable : Bool
  /-- The value of `ftell` at the end of the file. -/
  file_size : Int
  /-- The bytes `fread` stores in the buffer (`bytes_read` is their number). -/
  data : List Nat
  /-- Whether `fopen(filename, "w")` succeeds. -/
  writable : Bool
  /-- The outcome of the `malloc` of `file_content`. -/
  content_ok : Bool
  /-- The outcome of the `malloc` of the line array. -/
  array_ok : Bool
  /-- The outcomes of the `malloc` calls in the loop of `parse_lines`. -/
  line_allocs : List Bool
  /-- The outcome of the `malloc` of `formatted_result`. -/
  result_ok : Bool
  /-- The outcomes of the `malloc` and `realloc` calls in the `for` loop. -/
  loop_allocs : List Bool
  /-- The value of every indeterminate byte of a fresh block. -/
  junk : Nat

/-- What one run of `main` leaves behind. -/
structure Outcome where
  /-- The value returned by `main`. -/
  exit_code : Nat
  /-- The string handed to `fputs`, `none` when `fputs` is not reached. -/
  written : Option (List Nat)
deriving DecidableEq

/-- The buffer `file_content` after line 180: the bytes read, the terminator,
and the part of the block `fread` did not fill. -/
def read_file (env : Env) : List Nat :=
  env.data ++ 0 :: List.replicate (env.file_size.toNat - env.data.length) env.junk

/-- Lines 205-219 of `main`: the output buffer before the `for` loop, a fresh block
of `2 * (file_size + 1)` bytes with a terminator in front. -/
def initial_assembler (env : Env) : Assembler :=
  let content_buffer_size := (env.file_size + 1).toNat
  let result_buffer_size := content_buffer_size * 2
  ⟨(List.replicate result_buffer_size env.junk).set 0 0, 0, result_buffer_size⟩

/-- Lines 205-250 of `main`: the output buffer at line 250, for the line array
`lines`. -/
def assemble (env : Env) (lines : List (List Nat)) : List Nat :=
  let st := assemble_loop env.junk lines 1 (initial_assembler env) env.loop_allocs
  let pos := strip_newlines st.formatted_result st.current_output_position
  st.formatted_result.set pos 0

/-- The function `main`. -/
def main (env : Env) : Outcome :=
  if env.readable = false then ⟨1, none⟩
  else if env.file_size ≤ 0 then ⟨1, none⟩
  else if env.content_ok = false then ⟨1, none⟩
  else
    let file_content := remove_special_chars (read_file env)
    let max_lines_estimate := count_newlines file_content + 2
    match parse_lines file_content max_lines_estimate env.array_ok env.line_allocs with
    | none => ⟨1, none⟩
    | some lines_array =>
      if lines_array.length = 0 then ⟨1, none⟩
      else if env.result_ok = false then ⟨1, none⟩
      else
        let formatted_result := assemble env lines_array
        if env.writable = false then ⟨1, none⟩
        else ⟨0, some (cstr formatted_result)⟩

/-- A run on a file with the bytes `data` in which every call succeeds. -/
def plain_env (data : List Nat) : Env :=
  ⟨true, data.length, data, true, true, true, [], true, [], 170⟩

/-! ## Definitions of the specification -/

/-- The bytes `remove_special_chars` keeps. -/
def kept (c : Nat) : Bool := c != 42 && c != 34

/-- Skipping one `.` if the text starts with one. -/
def drop_dot : List Nat → List Nat
  | 46 :: t => t
  | s => s

/-- The body of a rewritten line, following the wording of the specification:
skip leading whitespace; skip a run of digits, one `.` if present, and whitespace;
if a `:` occurs, drop everything up to and including the first one; skip whitespace. -/
def rewrite_body (line : List Nat) : List Nat :=
  let s := line.dropWhile isspace
  let s := s.dropWhile isdigit
  let s := drop_dot s
  let s := s.dropWhile isspace
  let s := if 58 ∈ s then (s.dropWhile (fun c => c != 58)).drop 1 else s
  s.dropWhile isspace

/-- The number a list of ASCII decimal digits denotes, most significant digit first. -/
def digits_value (ds : List Nat) : Nat := ds.foldl (fun acc d => 10 * acc + (d - 48)) 0

/-- A segment without leading and trailing whitespace. -/
def trim (s : List Nat) : List Nat := (s.dropWhile isspace).rdropWhile isspace

/-- The lines of a text, following the wording of the specification: cut the text at
every `\n`, trim each segment, discard the segments that become empty. -/
def split_lines (text : List Nat) : List (List Nat) :=
  ((text.splitOn 10).map trim).filter (fun s => decide (s ≠ []))

/-- The accepted line, if any, that one trimmed segment contributes. -/
def accepted (seg : List Nat) : List (List Nat) := if trim seg = [] then [] else [trim seg]

/-- The output buffer is as large as recorded and holds the text `acc` and a terminator. -/
def Holds (st : Assembler) (acc : List Nat) : Prop :=
  st.formatted_result.length = st.result_buffer_size ∧
  st.current_output_position = acc.length ∧
  acc.length < st.result_buffer_size ∧
  st.formatted_result.take acc.length = acc ∧
  peek st.formatted_result acc.length = 0

/-- A list of allocation outcomes without a failure. -/
def all_succeed (allocs : List Bool) : Prop := ∀ b ∈ allocs, b = true

/-- The string `process_line(line, n, _)` returns when its `malloc` succeeds. -/
def processed_text (n : Int) (line : List Nat) : List Nat :=
  match (process_line line n 0 true).formatted_line with
  | some formatted_line => cstr formatted_line
  | none => []

/-- The concatenation of the strings `process_line` returns for the lines of the array,
numbered from `n` on. -/
def concat_processed : Int → List (List Nat) → List Nat
  | _, [] => []
  | n, line :: rest => processed_text n line ++ concat_processed (n + 1) rest

/-- The entry of the numbered list for the number `n` and the line `line`. -/
def entry (n : Int) (line : List Nat) : List Nat :=
  print_int n ++ ascii ". " ++ rewrite_body line

/-- The entries for lines numbered from `n` on. -/
def entries_from : Int → List (List Nat) → List (List Nat)
  | _, [] => []
  | n, line :: rest => entry n line :: entries_from (n + 1) rest

/-- A line without trailing whitespace. -/
def ends_tidy (line : List Nat) : Prop := ∀ h : line ≠ [], isspace (line.getLast h) = false

/-- The formatted line `fl` sits in the buffer of `st2` at the offset of `st`, behind
the unchanged first bytes and followed by a terminator inside the buffer. -/
def Appended (st : Assembler) (fl : List Nat) (st2 : Assembler) : Prop :=
  st2.current_output_position = st.current_output_position + strlen fl 0 ∧
  st2.formatted_result.length = st2.result_buffer_size ∧
  st2.current_output_position < st2.result_buffer_size ∧
  st2.formatted_result.take st.current_output_position
    = st.formatted_result.take st.current_output_position ∧
  (st2.formatted_result.drop st.current_output_position).take (strlen fl 0) = cstr fl ∧
  peek st2.formatted_result st2.current_output_position = 0

/-- The text the pipeline makes of the bytes `t` of a file, following the specification:
sanitize, split into lines, number the bodies from 1, separate by one blank line. -/
def format_text (t : List Nat) : List Nat :=
  List.intercalate (ascii "\n\n") (entries_from 1 (split_lines ((cstr t).filter kept)))

/-! ## Lemmas on the primitives -/

theorem isspace_zero : isspace 0 = false := by decide

theorem peek_nil (i : Nat) : peek [] i = 0 := by
  cases i <;> rfl

theorem peek_cons_zero (c : Nat) (s : List Nat) : peek (c :: s) 0 = c := rfl

theorem peek_cons_succ (c : Nat) (s : List Nat) (i : Nat) : peek (c :: s) (i + 1) = peek s i := rfl

theorem peek_append_length (a b : List Nat) : peek (a ++ b) a.length = peek b 0 := by
  induction a with
  | nil => rfl
  | cons x a ih => simpa [peek_cons_succ] using ih

theorem peek_append_add (a b : List Nat) (k : Nat) : peek (a ++ b) (a.length + k) = peek b k := by
  induction a with
  | nil => simp
  | cons x a ih =>
    have : (x :: a).length + k = (a.length + k) + 1 := by simp; omega
    rw [this]; simpa [peek_cons_succ] using ih

theorem peek_of_length_le (s : List Nat) (i : Nat) (h : s.length ≤ i) : peek s i = 0 := by
  induction s generalizing i with
  | nil => exact peek_nil i
  | cons x s ih =>
    cases i with
    | zero => simp at h
    | succ i => rw [peek_cons_succ]; exact ih i (by simpa using h)

theorem peek_eq_head_drop (s : List Nat) (i : Nat) : peek s i = peek (s.drop i) 0 := by
  induction s generalizing i with
  | nil => simp [peek_nil]
  | cons x s ih =>
    cases i with
    | zero => rfl
    | succ i => rw [peek_cons_succ, List.drop_succ_cons]; exact ih i

theorem cstr_nil : cstr [] = [] := rfl

theorem cstr_cons_zero (s : List Nat) : cstr (0 :: s) = [] := rfl

theorem cstr_cons_of_ne {c : Nat} (h : c ≠ 0) (s : List Nat) : cstr (c :: s) = c :: cstr s := by
  simp [cstr, List.takeWhile_cons, h]

theorem cstr_ne_zero (s : List Nat) : ∀ c ∈ cstr s, c ≠ 0 := by
  intro c hc
  have := List.mem_takeWhile_imp hc
  simpa using this

theorem cstr_of_ne_zero {s : List Nat} (h : ∀ c ∈ s, c ≠ 0) : cstr s = s := by
  induction s with
  | nil => rfl
  | cons x s ih =>
    rw [cstr_cons_of_ne (h x (by simp)), ih (fun c hc => h c (by simp [hc]))]

theorem cstr_append_zero {s : List Nat} (h : ∀ c ∈ s, c ≠ 0) (t : List Nat) :
    cstr (s ++ 0 :: t) = s := by
  induction s with
  | nil => rfl
  | cons x s ih =>
    rw [List.cons_append, cstr_cons_of_ne (h x (by simp)), ih (fun c hc => h c (by simp [hc]))]

theorem cstr_append_of_ne_zero {s : List Nat} (h : ∀ c ∈ s, c ≠ 0) (t : List Nat) :
    cstr (s ++ t) = s ++ cstr t := by
  induction s with
  | nil => rfl
  | cons x s ih =>
    rw [List.cons_append, cstr_cons_of_ne (h x (by simp)), ih (fun c hc => h c (by simp [hc]))]
    rfl

theorem cstr_cstr (s : List Nat) : cstr (cstr s) = cstr s := cstr_of_ne_zero (cstr_ne_zero s)

/-- A buffer splits into its string, and, unless the list ends there, the terminator and
the bytes behind it. -/
theorem cstr_split (s : List Nat) : s = cstr s ∨ ∃ t, s = cstr s ++ 0 :: t := by
  induction s with
  | nil => left; rfl
  | cons x s ih =>
    by_cases hx : x = 0
    · subst hx; right; exact ⟨s, rfl⟩
    · rw [cstr_cons_of_ne hx]
      rcases ih with h | ⟨t, h⟩
      · left; rw [← h]
      · right; exact ⟨t, by rw [List.cons_append, ← h]⟩

theorem strlen_from_eq (s : List Nat) : strlen_from s = (cstr s).length := by
  induction s with
  | nil => rfl
  | cons x s ih =>
    by_cases hx : x = 0
    · subst hx; rfl
    · rw [cstr_cons_of_ne hx]; simp [strlen_from, hx, ih]

theorem strlen_eq (buf : List Nat) (i : Nat) : strlen buf i = (cstr_at buf i).length :=
  strlen_from_eq _

theorem skip_from_eq (test : Nat → Bool) (s : List Nat) :
    skip_from test s = ((cstr s).takeWhile test).length := by
  induction s with
  | nil => rfl
  | cons x s ih =>
    by_cases hx : x = 0
    · subst hx; simp [skip_from, cstr_cons_zero]
    · rw [cstr_cons_of_ne hx]
      by_cases ht : test x = true
      · simp [skip_from, hx, ht, ih]
      · simp [skip_from, ht]

theorem skip_from_le (test : Nat → Bool) (s : List Nat) : skip_from test s ≤ (cstr s).length := by
  rw [skip_from_eq]; exact (List.takeWhile_sublist test).length_le

theorem cstr_drop_of_le {s : List Nat} {k : Nat} (h : k ≤ (cstr s).length) :
    cstr (s.drop k) = (cstr s).drop k := by
  induction s generalizing k with
  | nil => simp [cstr_nil]
  | cons x s ih =>
    cases k with
    | zero => rfl
    | succ k =>
      by_cases hx : x = 0
      · subst hx; simp [cstr_cons_zero] at h
      · rw [cstr_cons_of_ne hx] at h ⊢
        simp only [List.drop_succ_cons]
        exact ih (by simpa using h)

theorem drop_takeWhile_length {α : Type} (p : α → Bool) (l : List α) :
    l.drop (l.takeWhile p).length = l.dropWhile p := by
  induction l with
  | nil => rfl
  | cons x l ih =>
    by_cases h : p x = true
    · simp [h, ih]
    · simp [h]

theorem cstr_at_add {buf : List Nat} {i k : Nat} (h : k ≤ (cstr_at buf i).length) :
    cstr_at buf (i + k) = (cstr_at buf i).drop k := by
  unfold cstr_at at *
  rw [← List.drop_drop]
  exact cstr_drop_of_le h

/-- The string left after `while (*p && test(*p)) p++`. -/
theorem cstr_at_skip_while (test : Nat → Bool) (buf : List Nat) (i : Nat) :
    cstr_at buf (skip_while test buf i) = (cstr_at buf i).dropWhile test := by
  unfold skip_while
  rw [cstr_at_add (skip_from_le _ _), skip_from_eq]
  exact drop_takeWhile_length _ _

theorem skip_while_eq (test : Nat → Bool) (buf : List Nat) (i : Nat) :
    skip_while test buf i = i + ((cstr_at buf i).takeWhile test).length := by
  unfold skip_while; rw [skip_from_eq]; rfl

theorem peek_eq_head_cstr_at (buf : List Nat) (i : Nat) : peek buf i = (cstr_at buf i).headD 0 := by
  rw [peek_eq_head_drop]
  unfold cstr_at
  cases buf.drop i with
  | nil => rfl
  | cons x s =>
    by_cases hx : x = 0
    · subst hx; rfl
    · rw [cstr_cons_of_ne hx]; rfl

theorem set_append_length (a : List Nat) (x b : Nat) (t : List Nat) :
    (a ++ x :: t).set a.length b = a ++ b :: t := by
  induction a with
  | nil => rfl
  | cons y a ih => simp [ih]

theorem set_of_length_le (s : List Nat) (i b : Nat) (h : s.length ≤ i) : s.set i b = s := by
  induction s generalizing i with
  | nil => rfl
  | cons x s ih =>
    cases i with
    | zero => simp at h
    | succ i => simp [ih i (by simpa using h)]

theorem write_bytes_of_length_le (s : List Nat) (i : Nat) (data : List Nat) (h : s.length ≤ i) :
    write_bytes s i data = s := by
  induction data generalizing i with
  | nil => rfl
  | cons b bs ih =>
    simp only [write_bytes]
    rw [set_of_length_le s _ _ h]
    exact ih (i + 1) (by omega)

/-- Storing `data` behind the bytes `a`: the stores that fit replace the old bytes. -/
theorem write_bytes_append (a old : List Nat) (data : List Nat) :
    write_bytes (a ++ old) a.length data = a ++ data.take old.length ++ old.drop data.length := by
  induction data generalizing a old with
  | nil => simp [write_bytes]
  | cons b bs ih =>
    cases old with
    | nil =>
      simp only [List.append_nil, List.length_nil, List.take_zero, List.drop_nil]
      exact write_bytes_of_length_le a _ _ (le_refl _)
    | cons x old =>
      simp only [write_bytes]
      rw [set_append_length]
      have := ih (a ++ [b]) old
      simp only [List.append_assoc, List.singleton_append, List.length_append, List.length_singleton] at this
      rw [this]
      simp

theorem write_bytes_length (buf : List Nat) (i : Nat) (data : List Nat) :
    (write_bytes buf i data).length = buf.length := by
  induction data generalizing buf i with
  | nil => rfl
  | cons b bs ih => simp only [write_bytes]; rw [ih]; simp

/-- Reading up to and including the terminator of the string at `src`. -/
theorem read_bytes_string (buf : List Nat) (src : Nat) :
    read_bytes buf src (strlen buf src + 1) = cstr_at buf src ++ [0] := by
  rw [strlen_eq]
  generalize hn : (cstr_at buf src).length = n
  induction n generalizing src with
  | zero =>
    have h0 : cstr_at buf src = [] := List.length_eq_zero.mp hn
    simp only [read_bytes, h0, List.nil_append, zero_add]
    rw [peek_eq_head_cstr_at, h0]; rfl
  | succ n ih =>
    have hne : cstr_at buf src ≠ [] := by intro h; simp [h] at hn
    obtain ⟨c, t, hct⟩ := List.exists_cons_of_ne_nil hne
    have hadd : cstr_at buf (src + 1) = t := by
      rw [cstr_at_add (by rw [hct]; simp), hct]; rfl
    have : read_bytes buf src (n + 1 + 1) = peek buf src :: read_bytes buf (src + 1) (n + 1) := rfl
    rw [this, ih (src + 1) (by rw [hadd]; rw [hct] at hn; simpa using hn), hadd, hct,
      peek_eq_head_cstr_at, hct]
    rfl

/-- Reading `n` bytes of a string that has at least `n` bytes. -/
theorem read_bytes_take (buf : List Nat) (src n : Nat) (h : n ≤ (cstr_at buf src).length) :
    read_bytes buf src n = (cstr_at buf src).take n := by
  induction n generalizing src with
  | zero => rfl
  | succ n ih =>
    have hne : cstr_at buf src ≠ [] := by intro h0; simp [h0] at h
    obtain ⟨c, t, hct⟩ := List.exists_cons_of_ne_nil hne
    have hadd : cstr_at buf (src + 1) = t := by
      rw [cstr_at_add (by rw [hct]; simp), hct]; rfl
    simp only [read_bytes]
    rw [ih (src + 1) (by rw [hadd]; rw [hct] at h; simpa using h), hadd, hct,
      peek_eq_head_cstr_at, hct]
    rfl

theorem strchr_from_eq {ch : Nat} (hch : ch ≠ 0) (s : List Nat) :
    strchr_from ch s =
      if ch ∈ cstr s then some ((cstr s).takeWhile (fun c => c != ch)).length else none := by
  induction s with
  | nil => simp [strchr_from, hch, cstr_nil]
  | cons x s ih =>
    by_cases hx : x = 0
    · subst hx
      simp [strchr_from, cstr_cons_zero, Ne.symm hch]
    · rw [cstr_cons_of_ne hx]
      by_cases hxc : x = ch
      · subst hxc; simp [strchr_from]
      · simp only [strchr_from, hxc, hx, if_false, ih]
        by_cases hm : ch ∈ cstr s
        · simp [hm, hxc]
        · simp [hm, hxc, Ne.symm hxc]

theorem strchr_eq {ch : Nat} (hch : ch ≠ 0) (buf : List Nat) (i : Nat) :
    strchr buf i ch =
      if ch ∈ cstr_at buf i then
        some (i + ((cstr_at buf i).takeWhile (fun c => c != ch)).length) else none := by
  unfold strchr
  rw [strchr_from_eq hch]
  unfold cstr_at
  split <;> rfl

/-! ## remove_special_chars -/

/-- The loop of `remove_special_chars` with the buffer cut at the two pointers: `done`
is what was written, `mid` lies between `write_ptr` and `read_ptr`, `rest` is unread. -/
theorem remove_special_chars_loop_spec (rest : List Nat) :
    ∀ (fuel : Nat) (done mid : List Nat), rest.length < fuel →
      ∃ junk, remove_special_chars_loop fuel (done ++ mid ++ rest) done.length
          (done.length + mid.length)
        = (done ++ (cstr rest).filter kept ++ junk,
            done.length + ((cstr rest).filter kept).length) := by
  induction rest with
  | nil =>
    intro fuel done mid hf
    obtain ⟨f, rfl⟩ : ∃ f, fuel = f + 1 := ⟨fuel - 1, by omega⟩
    refine ⟨mid, ?_⟩
    have hp : peek (done ++ mid ++ []) (done.length + mid.length) = 0 :=
      peek_of_length_le _ _ (by simp)
    rw [remove_special_chars_loop]
    simp only [hp]
    simp [cstr_nil]
  | cons c rest ih =>
    intro fuel done mid hf
    obtain ⟨f, rfl⟩ : ∃ f, fuel = f + 1 := ⟨fuel - 1, by omega⟩
    have hf2 : rest.length < f := by simp at hf; omega
    have hp : peek (done ++ mid ++ c :: rest) (done.length + mid.length) = c := by
      have := peek_append_length (done ++ mid) (c :: rest)
      simpa using this
    by_cases hc : c = 0
    · subst hc
      refine ⟨mid ++ 0 :: rest, ?_⟩
      rw [remove_special_chars_loop]
      simp only [hp]
      simp [cstr_cons_zero]
    · rw [cstr_cons_of_ne hc]
      by_cases hk : c ≠ 42 ∧ c ≠ 34
      · have hkept : kept c = true := by simp [kept, hk.1, hk.2]
        obtain ⟨h, tl, htl⟩ : ∃ h tl, mid ++ [c] = h :: tl := by
          cases mid with
          | nil => exact ⟨c, [], rfl⟩
          | cons m mid2 => exact ⟨m, mid2 ++ [c], rfl⟩
        have hlen : tl.length = mid.length := by
          have := congrArg List.length htl
          simp at this; omega
        have hbuf : done ++ mid ++ c :: rest = done ++ h :: (tl ++ rest) := by
          have : done ++ mid ++ c :: rest = done ++ (mid ++ [c]) ++ rest := by simp
          rw [this, htl]; simp
        have hset : (done ++ mid ++ c :: rest).set done.length c = (done ++ [c]) ++ tl ++ rest := by
          rw [hbuf, set_append_length]; simp
        obtain ⟨junk, hj⟩ := ih f (done ++ [c]) tl hf2
        refine ⟨junk, ?_⟩
        have hstep : remove_special_chars_loop (f + 1) (done ++ mid ++ c :: rest) done.length
            (done.length + mid.length)
            = remove_special_chars_loop f ((done ++ [c]) ++ tl ++ rest) (done ++ [c]).length
              ((done ++ [c]).length + tl.length) := by
          rw [remove_special_chars_loop]
          simp only [hp, hc, hk, ne_eq, not_false_eq_true, and_self, if_true, hset]
          have e1 : done.length + 1 = (done ++ [c]).length := by simp
          have e2 : done.length + mid.length + 1 = (done ++ [c]).length + tl.length := by
            simp; omega
          rw [e1, e2]
        rw [hstep, hj]
        simp [List.filter_cons, hkept]
        omega
      · have hkept : kept c = false := by
          simp only [kept]
          by_cases h1 : c = 42
          · simp [h1]
          · have h2 : c = 34 := by
              by_contra h2; exact hk ⟨h1, h2⟩
            simp [h2]
        obtain ⟨junk, hj⟩ := ih f done (mid ++ [c]) hf2
        refine ⟨junk, ?_⟩
        have hstep : remove_special_chars_loop (f + 1) (done ++ mid ++ c :: rest) done.length
            (done.length + mid.length)
            = remove_special_chars_loop f (done ++ (mid ++ [c]) ++ rest) done.length
              (done.length + (mid ++ [c]).length) := by
          rw [remove_special_chars_loop]
          simp only [hp, hc, hk, ne_eq, not_false_eq_true, if_true, if_false]
          have e2 : done.length + mid.length + 1 = done.length + (mid ++ [c]).length := by
            simp; omega
          rw [e2]; simp
        rw [hstep, hj]
        simp [List.filter_cons, hkept]

theorem kept_ne_zero_of_mem_filter {s : List Nat} : ∀ c ∈ (cstr s).filter kept, c ≠ 0 := by
  intro c hc
  exact cstr_ne_zero s c (List.mem_of_mem_filter hc)

/-- The string left in the buffer by `remove_special_chars`. -/
theorem cstr_remove_special_chars (content : List Nat) :
    cstr (remove_special_chars content) = (cstr content).filter kept := by
  obtain ⟨junk, hj⟩ := remove_special_chars_loop_spec content (content.length + 1) [] []
    (by omega)
  simp only [List.nil_append, List.length_nil, zero_add] at hj
  unfold remove_special_chars
  simp only [hj]
  cases junk with
  | nil =>
    rw [List.append_nil, set_of_length_le _ _ _ (le_refl _)]
    exact cstr_of_ne_zero kept_ne_zero_of_mem_filter
  | cons x junk =>
    rw [set_append_length]
    exact cstr_append_zero kept_ne_zero_of_mem_filter junk

/-! ## process_line -/

theorem cstr_at_length_le (buf : List Nat) (i : Nat) :
    i + (cstr_at buf i).length ≤ max i buf.length := by
  unfold cstr_at cstr
  have h := (List.takeWhile_sublist (fun c => c != 0) (l := buf.drop i)).length_le
  simp only [List.length_drop] at h
  omega

theorem cstr_at_ne_zero (buf : List Nat) (i : Nat) : ∀ c ∈ cstr_at buf i, c ≠ 0 :=
  cstr_ne_zero _

/-- Storing a string and its terminator at index `i`, inside the buffer. -/
theorem cstr_at_write_string (buf : List Nat) (i : Nat) (s : List Nat) (hs : ∀ c ∈ s, c ≠ 0)
    (h : i + s.length < buf.length) : cstr_at (write_bytes buf i (s ++ [0])) i = s := by
  have hi : (buf.take i).length = i := by simp; omega
  have hb : write_bytes buf i (s ++ [0])
      = buf.take i ++ (s ++ [0]).take (buf.drop i).length ++ (buf.drop i).drop (s ++ [0]).length := by
    have := write_bytes_append (buf.take i) (buf.drop i) (s ++ [0])
    rwa [List.take_append_drop, hi] at this
  have ht : (s ++ [0]).take (buf.drop i).length = s ++ [0] := by
    apply List.take_of_length_le
    simp; omega
  rw [hb, ht]
  unfold cstr_at
  have hd : (buf.take i ++ (s ++ [0]) ++ (buf.drop i).drop (s ++ [0]).length).drop i
      = s ++ 0 :: (buf.drop i).drop (s ++ [0]).length := by
    rw [List.append_assoc]
    have := List.drop_left (buf.take i) (s ++ [0] ++ (buf.drop i).drop (s ++ [0]).length)
    rw [hi] at this
    rw [this]
    simp
  rw [hd]
  exact cstr_append_zero hs _

theorem write_bytes_fresh (n : Nat) (data : List Nat) (h : data.length = n) (fill : Nat) :
    write_bytes (List.replicate n fill) 0 data = data := by
  have := write_bytes_append [] (List.replicate n fill) data
  simp only [List.nil_append, List.length_nil, List.length_replicate] at this
  rw [this, List.take_of_length_le (by omega), List.drop_of_length_le (by simp; omega)]
  simp

theorem decimal_digits_value (fuel : Nat) : ∀ (n : Nat), n < fuel →
    digits_value (decimal_digits fuel n) = n := by
  induction fuel with
  | zero => intro n h; omega
  | succ f ih =>
    intro n h
    unfold decimal_digits
    split
    · simp [digits_value]
    · have h1 := ih (n / 10) (by omega)
      unfold digits_value at h1 ⊢
      rw [List.foldl_append, h1]
      simp only [List.foldl_cons, List.foldl_nil]
      omega

theorem print_int_value (n : Nat) : digits_value (print_int (n : Int)) = n :=
  decimal_digits_value (n + 1) n (by omega)

theorem decimal_digits_range (fuel n : Nat) : ∀ c ∈ decimal_digits fuel n, 48 ≤ c ∧ c ≤ 57 := by
  induction fuel generalizing n with
  | zero => intro c hc; simp [decimal_digits] at hc
  | succ f ih =>
    intro c hc
    unfold decimal_digits at hc
    split at hc
    · simp at hc; omega
    · rcases List.mem_append.mp hc with h | h
      · exact ih _ c h
      · simp at h; omega

theorem print_int_ne_zero (i : Int) : ∀ c ∈ print_int i, c ≠ 0 := by
  intro c hc
  cases i with
  | ofNat n =>
    have := decimal_digits_range _ _ c hc
    omega
  | negSucc n =>
    simp only [print_int, List.mem_cons] at hc
    rcases hc with h | h
    · omega
    · have := decimal_digits_range _ _ c h
      omega

theorem format_line_ne_zero (n : Int) (s : List Nat) (hs : ∀ c ∈ s, c ≠ 0) :
    ∀ c ∈ format_line n s, c ≠ 0 := by
  intro c hc
  simp only [format_line, List.mem_append, List.mem_cons, List.mem_singleton,
    List.not_mem_nil, or_false] at hc
  rcases hc with ((h | h) | h) | h
  · exact print_int_ne_zero n c h
  · omega
  · exact hs c h
  · omega

theorem dot_step (line : List Nat) (p1 : Nat) (s1 : List Nat) (h1 : cstr_at line p1 = s1) :
    cstr_at line (if peek line p1 = 46 then p1 + 1 else p1)
      = drop_dot s1 := by
  subst h1
  rw [peek_eq_head_cstr_at]
  cases hs : cstr_at line p1 with
  | nil => simp [hs, drop_dot]
  | cons c t =>
    by_cases hc : c = 46
    · subst hc
      simp only [List.headD_cons, if_true]
      rw [cstr_at_add (by rw [hs]; simp), hs]; rfl
    · simp only [List.headD_cons, hc, if_false]
      rw [hs]
      unfold drop_dot
      split
      · rename_i t2 heq; simp at heq; exact absurd heq.1 hc
      · rfl

theorem drop_takeWhile_succ {s : List Nat} {ch : Nat} (h : ch ∈ s) :
    s.drop ((s.takeWhile (fun c => c != ch)).length + 1) = (s.dropWhile (fun c => c != ch)).drop 1
      ∧ (s.takeWhile (fun c => c != ch)).length + 1 ≤ s.length := by
  induction s with
  | nil => simp at h
  | cons x s ih =>
    by_cases hx : x = ch
    · subst hx; simp
    · have hm : ch ∈ s := by
        rcases List.mem_cons.mp h with h | h
        · exact absurd h.symm hx
        · exact h
      have := ih hm
      simp [hx, this.1]
      exact this.2

/-- The string at `current_pos` when `process_line` prints it. -/
theorem strip_line_spec (line : List Nat) :
    cstr_at (strip_line line).1 (strip_line line).2 = rewrite_body (cstr line) := by
  have key : ∀ r, strip_line line = r → cstr_at r.1 r.2 = rewrite_body (cstr line) := by
    intro r hr
    unfold strip_line at hr
    lift_lets at hr
    extract_lets p0 p1 p2 p3 line2 p4 at hr
    subst hr
    have h0 : cstr_at line p0 = (cstr line).dropWhile isspace := cstr_at_skip_while isspace line 0
    have h1 : cstr_at line p1 = ((cstr line).dropWhile isspace).dropWhile isdigit := by
      rw [← h0]; exact cstr_at_skip_while isdigit line p0
    have h2 := dot_step line p1 _ h1
    have h3 : cstr_at line p3 = (cstr_at line p2).dropWhile isspace :=
      cstr_at_skip_while isspace line p2
    have h4 : cstr_at line2 p4 = (cstr_at line2 p3).dropWhile isspace :=
      cstr_at_skip_while isspace line2 p3
    have h5 : cstr_at line2 p3 = if 58 ∈ cstr_at line p3
        then ((cstr_at line p3).dropWhile (fun c => c != 58)).drop 1 else cstr_at line p3 := by
      show cstr_at (match strchr line p3 58 with
        | some colon_position =>
          memmove line p3 (colon_position + 1) (strlen line (colon_position + 1) + 1)
        | none => line) p3 = _
      rw [strchr_eq (by decide : (58 : Nat) ≠ 0)]
      by_cases hm : 58 ∈ cstr_at line p3
      · simp only [hm, if_true]
        obtain ⟨hd, hle⟩ := drop_takeWhile_succ hm
        generalize hk : ((cstr_at line p3).takeWhile (fun c => c != 58)).length = k at hd hle
        have hc : cstr_at line (p3 + k + 1) = ((cstr_at line p3).dropWhile (fun c => c != 58)).drop 1 := by
          rw [Nat.add_assoc, cstr_at_add hle, hd]
        unfold memmove
        rw [read_bytes_string, hc]
        apply cstr_at_write_string
        · intro c hc2
          rw [← hc] at hc2
          exact cstr_at_ne_zero _ _ c hc2
        · have hb := cstr_at_length_le line p3
          have hl : (((cstr_at line p3).dropWhile (fun c => c != 58)).drop 1).length + (k + 1)
              = (cstr_at line p3).length := by
            rw [← hd]; simp; omega
          have hpos : 0 < (cstr_at line p3).length := by omega
          omega
      · simp only [hm, if_false]
    show cstr_at line2 p4 = rewrite_body (cstr line)
    rw [h4, h5, h3, h2]
    rfl
  exact key _ rfl

/-- The buffer `process_line` returns when its `malloc` succeeds. -/
theorem process_line_result (line : List Nat) (line_number : Int) (max_line_length : Nat) :
    (process_line line line_number max_line_length true).formatted_line
      = some (format_line line_number (rewrite_body (cstr line)) ++ [0]) := by
  unfold process_line
  simp only [strlen_eq, strip_line_spec]
  have hlen : (print_int line_number ++ [46, 32]).length + (rewrite_body (cstr line)).length + 3 - 1
      = (format_line line_number (rewrite_body (cstr line))).length := by
    simp [format_line]; omega
  rw [hlen, List.take_length]
  simp only [Bool.true_eq_false, if_false]
  congr 1
  apply write_bytes_fresh
  simp [format_line]; omega

/-! ## The trimming of parse_lines -/

theorem rdropWhile_decomp (p : Nat → Bool) (t : List Nat) (h : ∃ x ∈ t, p x = false) :
    ∃ core x tail, t = core ++ [x] ++ tail ∧ p x = false ∧ (∀ y ∈ tail, p y = true) ∧
      t.rdropWhile p = core ++ [x] := by
  induction t using List.reverseRecOn with
  | nil => obtain ⟨x, hx, _⟩ := h; simp at hx
  | append_singleton t y ih =>
    by_cases hy : p y = true
    · have h2 : ∃ x ∈ t, p x = false := by
        obtain ⟨x, hx, hpx⟩ := h
        rcases List.mem_append.mp hx with h1 | h1
        · exact ⟨x, h1, hpx⟩
        · simp at h1; subst h1; rw [hy] at hpx; simp at hpx
      obtain ⟨core, x, tail, ht, hx, htail, hr⟩ := ih h2
      refine ⟨core, x, tail ++ [y], ?_, hx, ?_, ?_⟩
      · rw [ht]; simp
      · intro z hz
        rcases List.mem_append.mp hz with h1 | h1
        · exact htail z h1
        · simp at h1; subst h1; exact hy
      · rw [List.rdropWhile_concat_pos _ _ _ hy, hr]
    · refine ⟨t, y, [], by simp, by simpa using hy, by simp, ?_⟩
      rw [List.rdropWhile_concat_neg _ _ _ hy]

theorem peek_append_lt (l r : List Nat) (j : Nat) (h : j < l.length) : peek (l ++ r) j ∈ l := by
  induction l generalizing j with
  | nil => simp at h
  | cons x l ih =>
    cases j with
    | zero => simp [peek_cons_zero]
    | succ j =>
      rw [List.cons_append, peek_cons_succ]
      exact List.mem_cons_of_mem _ (ih j (by simpa using h))

/-- The loop of line 68 on a buffer whose bytes from `s` on are `core`, a byte `x` that is
no whitespace, and whitespace `tail`: it stops on `x`. -/
theorem back_while_spec (a core : List Nat) (x : Nat) (tail rest : List Nat)
    (hx : isspace x = false) (htail : ∀ y ∈ tail, isspace y = true) (j : Nat)
    (hj : j ≤ tail.length) :
    back_while (a ++ core ++ [x] ++ tail ++ rest) a.length (a.length + core.length + j)
      = a.length + core.length := by
  induction j with
  | zero =>
    have hp : peek (a ++ core ++ [x] ++ tail ++ rest) (a.length + core.length) = x := by
      have := peek_append_length (a ++ core) ([x] ++ tail ++ rest)
      simpa using this
    cases hn : a.length + core.length with
    | zero => rfl
    | succ e =>
      simp only [Nat.add_zero, hn]
      rw [back_while]
      rw [← hn, hp, hx]
      simp
  | succ j ih =>
    have hp : peek (a ++ core ++ [x] ++ tail ++ rest) (a.length + core.length + j + 1)
        ∈ tail := by
      have h1 := peek_append_add (a ++ core ++ [x]) (tail ++ rest) j
      have h2 : (a ++ core ++ [x]).length + j = a.length + core.length + j + 1 := by
        simp; omega
      rw [h2] at h1
      have h3 : a ++ core ++ [x] ++ (tail ++ rest) = a ++ core ++ [x] ++ tail ++ rest := by simp
      rw [h3] at h1
      rw [h1]
      exact peek_append_lt tail rest j (by omega)
    have : a.length + core.length + (j + 1) = (a.length + core.length + j) + 1 := by omega
    rw [this, back_while]
    rw [htail _ hp]
    have hgt : a.length + core.length + j + 1 > a.length := by omega
    simp only [hgt, and_self, if_true]
    exact ih (by omega)

theorem takeWhile_isspace_ne_zero (s : List Nat) : ∀ c ∈ s.takeWhile isspace, c ≠ 0 := by
  intro c hc h0
  have := List.mem_takeWhile_imp hc
  rw [h0] at this
  exact absurd this (by decide)

/-- Lines 58-82 on the copy of a segment: a blank segment is dropped. -/
theorem trim_line_blank (seg : List Nat) (rest : List Nat) (hz : ∀ c ∈ seg, c ≠ 0)
    (h : trim seg = []) : trim_line (seg ++ 0 :: rest) = none := by
  have hall : ∀ c ∈ seg, isspace c = true := by
    have h1 : ∀ c ∈ seg.dropWhile isspace, isspace c = true :=
      List.rdropWhile_eq_nil_iff.mp h
    intro c hc
    by_cases hs : isspace c = true
    · exact hs
    · have hd : seg.dropWhile isspace = [] := by
        by_contra hne
        have := List.head_dropWhile_not isspace seg hne
        exact absurd (h1 _ (List.head_mem hne)) (by simpa using this)
      exact List.dropWhile_eq_nil_iff.mp hd c hc
  unfold trim_line
  have hc : cstr_at (seg ++ 0 :: rest) 0 = seg := cstr_append_zero hz rest
  have hs : skip_while isspace (seg ++ 0 :: rest) 0 = seg.length := by
    rw [skip_while_eq, hc, List.takeWhile_eq_self_iff.mpr hall]; simp
  simp only [hs]
  have hp : peek (seg ++ 0 :: rest) seg.length = 0 := by
    rw [peek_append_length]; rfl
  simp [hp]

/-- Lines 58-82 on the copy of a segment: the stored buffer holds the trimmed segment. -/
theorem trim_line_some (seg : List Nat) (rest : List Nat) (hz : ∀ c ∈ seg, c ≠ 0)
    (h : trim seg ≠ []) :
    ∃ stored, trim_line (seg ++ 0 :: rest) = some stored ∧ cstr stored = trim seg := by
  -- the shape of the segment
  have hex : ∃ x ∈ seg.dropWhile isspace, isspace x = false := by
    by_contra hno
    apply h
    apply List.rdropWhile_eq_nil_iff.mpr
    intro x hx
    by_contra hx2
    exact hno ⟨x, hx, by simpa using hx2⟩
  obtain ⟨core, x, tail, ht, hx, htail, hr⟩ := rdropWhile_decomp isspace _ hex
  have hseg : seg = seg.takeWhile isspace ++ core ++ [x] ++ tail := by
    have := (List.takeWhile_append_dropWhile isspace seg).symm
    rw [ht] at this
    simpa using this
  generalize hpre : seg.takeWhile isspace = pre at hseg
  have htrim : trim seg = core ++ [x] := hr
  have hcz : ∀ c ∈ core ++ [x], c ≠ 0 := by
    intro c hc; apply hz; rw [hseg]; simp at hc ⊢; tauto
  have hc0 : cstr_at (seg ++ 0 :: rest) 0 = seg := cstr_append_zero hz rest
  have hs : skip_while isspace (seg ++ 0 :: rest) 0 = pre.length := by
    rw [skip_while_eq, hc0, hpre]; simp
  have hlen : strlen (seg ++ 0 :: rest) 0 = pre.length + core.length + 1 + tail.length := by
    rw [strlen_eq, hc0, hseg]; simp; omega
  have hbuf : seg ++ 0 :: rest = pre ++ core ++ [x] ++ tail ++ (0 :: rest) := by
    rw [hseg]
  have hpk : peek (seg ++ 0 :: rest) pre.length ≠ 0 := by
    have h1 := peek_append_length pre (core ++ [x] ++ tail ++ 0 :: rest)
    have h2 : pre ++ (core ++ [x] ++ tail ++ 0 :: rest) = seg ++ 0 :: rest := by
      rw [hbuf]; simp
    rw [h2] at h1
    rw [h1]
    cases core with
    | nil => exact hcz x (by simp)
    | cons c core2 => exact hcz c (by simp)
  have hback : back_while (seg ++ 0 :: rest) pre.length (0 + strlen (seg ++ 0 :: rest) 0 - 1)
      = pre.length + core.length := by
    have h1 := back_while_spec pre core x tail (0 :: rest) hx htail tail.length (le_refl _)
    rw [← hbuf] at h1
    have h2 : 0 + strlen (seg ++ 0 :: rest) 0 - 1 = pre.length + core.length + tail.length := by
      rw [hlen]; omega
    rw [h2, h1]
  obtain ⟨y, r2, hy⟩ : ∃ y r2, tail ++ 0 :: rest = y :: r2 := by
    cases tail with
    | nil => exact ⟨0, rest, rfl⟩
    | cons t tail2 => exact ⟨t, tail2 ++ 0 :: rest, rfl⟩
  have hset : (seg ++ 0 :: rest).set (pre.length + core.length + 1) 0
      = pre ++ ((core ++ [x]) ++ 0 :: r2) := by
    have h1 : seg ++ 0 :: rest = (pre ++ core ++ [x]) ++ y :: r2 := by
      rw [hbuf, ← hy]; simp
    have h2 : pre.length + core.length + 1 = (pre ++ core ++ [x]).length := by simp; omega
    rw [h1, h2, set_append_length]; simp
  have hc1 : cstr_at (pre ++ ((core ++ [x]) ++ 0 :: r2)) pre.length = core ++ [x] := by
    unfold cstr_at
    rw [List.drop_left]
    exact cstr_append_zero hcz r2
  unfold trim_line
  simp only [hs, hback, hset, hpk, ne_eq, not_false_eq_true, if_true]
  rw [htrim]
  refine ⟨_, rfl, ?_⟩
  by_cases hp0 : pre.length = 0
  · have : pre = [] := List.length_eq_zero.mp hp0
    subst this
    simp only [List.length_nil, ne_eq, not_true_eq_false, if_false]
    simpa using hc1
  · simp only [hp0, ne_eq, not_false_eq_true, if_true]
    unfold memmove
    rw [read_bytes_string, hc1]
    have := cstr_at_write_string (pre ++ ((core ++ [x]) ++ 0 :: r2)) 0 (core ++ [x]) hcz
      (by simp; omega)
    exact this

/-! ## The lines of a text -/

theorem split_lines_nil : split_lines [] = [] := by decide

theorem takeWhile_length_of_not_mem {s : List Nat} {ch : Nat} (h : ch ∉ s) :
    s.takeWhile (fun c => c != ch) = s := by
  apply List.takeWhile_eq_self_iff.mpr
  intro x hx
  have : x ≠ ch := fun e => h (e ▸ hx)
  simpa using this

theorem split_at_first {s : List Nat} {ch : Nat} (h : ch ∈ s) :
    s = s.takeWhile (fun c => c != ch) ++ ch :: s.drop ((s.takeWhile (fun c => c != ch)).length + 1) := by
  induction s with
  | nil => simp at h
  | cons x s ih =>
    by_cases hx : x = ch
    · subst hx; simp
    · have hm : ch ∈ s := by
        rcases List.mem_cons.mp h with h | h
        · exact absurd h.symm hx
        · exact h
      have := ih hm
      simp only [List.takeWhile_cons, bne_iff_ne, ne_eq, hx, not_false_eq_true, decide_True,
        if_true, List.length_cons, List.drop_succ_cons, List.cons_append, List.cons.injEq, true_and]
      exact this

/-- The first segment of a text and the lines of what follows it. -/
theorem split_lines_unfold (text : List Nat) :
    split_lines text = accepted (text.takeWhile (fun c => c != 10)) ++
      split_lines (text.drop ((text.takeWhile (fun c => c != 10)).length + 1)) := by
  by_cases h : 10 ∈ text
  · have hs := split_at_first h
    have hseg : ∀ x ∈ text.takeWhile (fun c => c != 10), ¬ ((x == 10) = true) := by
      intro x hx
      have := List.mem_takeWhile_imp hx
      simpa using this
    generalize text.takeWhile (fun c => c != 10) = seg at hs hseg ⊢
    generalize text.drop (seg.length + 1) = rest at hs ⊢
    have h1 : text.splitOn 10 = seg :: rest.splitOn 10 := by
      rw [hs]
      exact List.splitOnP_first (fun c => c == 10) seg hseg 10 (by simp) rest
    unfold split_lines accepted
    rw [h1]
    by_cases ht : trim seg = []
    · simp [ht]
    · simp [ht]
  · have hseg : text.takeWhile (fun c => c != 10) = text := takeWhile_length_of_not_mem h
    have h1 : text.splitOn 10 = [text] := by
      apply List.splitOnP_eq_single
      intro x hx
      have : x ≠ 10 := fun e => h (e ▸ hx)
      simpa using this
    rw [hseg, List.drop_of_length_le (by omega), split_lines_nil]
    unfold split_lines accepted
    rw [h1]
    by_cases ht : trim text = []
    · simp [ht]
    · simp [ht]

/-! ## The loop of parse_lines -/

/-- Line 41-43: `line_end` is `current_position` plus the length of the first segment. -/
theorem line_end_eq (content : List Nat) (pos : Nat) :
    find_line_end content pos
      = pos + ((cstr_at content pos).takeWhile (fun c => c != 10)).length := by
  unfold find_line_end
  rw [strchr_eq (by decide : (10 : Nat) ≠ 0)]
  by_cases h : 10 ∈ cstr_at content pos
  · simp only [h, if_true]
  · simp only [h, if_false]
    rw [strlen_eq, takeWhile_length_of_not_mem h]

/-- Line 86: the string at the next `current_position`. -/
theorem cstr_at_next (content : List Nat) (pos k : Nat)
    (hk : k = ((cstr_at content pos).takeWhile (fun c => c != 10)).length) :
    cstr_at content (if peek content (pos + k) = 10 then pos + k + 1 else pos + k)
      = (cstr_at content pos).drop (k + 1) := by
  have hle : k ≤ (cstr_at content pos).length := by
    rw [hk]; exact (List.takeWhile_sublist _).length_le
  have hd : cstr_at content (pos + k) = (cstr_at content pos).dropWhile (fun c => c != 10) := by
    rw [cstr_at_add hle, hk]; exact drop_takeWhile_length _ _
  by_cases h : 10 ∈ cstr_at content pos
  · obtain ⟨h1, h2⟩ := drop_takeWhile_succ h
    rw [← hk] at h1 h2
    have hp : peek content (pos + k) = 10 := by
      rw [peek_eq_head_cstr_at, hd]
      have hne : (cstr_at content pos).dropWhile (fun c => c != 10) ≠ [] := by
        intro he
        have := List.dropWhile_eq_nil_iff.mp he 10 h
        simp at this
      have := List.head_dropWhile_not (fun c => c != 10) _ hne
      obtain ⟨c, t, hct⟩ := List.exists_cons_of_ne_nil hne
      simp only [hct, List.head_cons] at this
      rw [hct]; simpa using this
    simp only [hp, if_true]
    rw [Nat.add_assoc, cstr_at_add h2]
  · have hk2 : k = (cstr_at content pos).length := by
      rw [hk, takeWhile_length_of_not_mem h]
    have hnil : cstr_at content (pos + k) = [] := by
      rw [cstr_at_add hle, hk2]; simp
    have hp : peek content (pos + k) ≠ 10 := by
      rw [peek_eq_head_cstr_at, hnil]; decide
    simp only [hp, if_false, hnil]
    rw [List.drop_of_length_le (by omega)]

/-- Lines 50-56: the copy of the segment, with its terminator. -/
theorem line_copy_eq (content : List Nat) (pos k : Nat)
    (hk : k = ((cstr_at content pos).takeWhile (fun c => c != 10)).length) :
    (memcpy (List.replicate (k + 1) 0) 0 content pos k).set k 0
      = (cstr_at content pos).takeWhile (fun c => c != 10) ++ [0] := by
  have hle : k ≤ (cstr_at content pos).length := by
    rw [hk]; exact (List.takeWhile_sublist _).length_le
  have hr : read_bytes content pos k = (cstr_at content pos).takeWhile (fun c => c != 10) := by
    rw [read_bytes_take _ _ _ hle, hk]
    have := List.takeWhile_append_dropWhile (fun c => c != 10) (cstr_at content pos)
    nth_rewrite 2 [← this]
    rw [List.take_left]
  unfold memcpy
  rw [hr]
  generalize hseg : (cstr_at content pos).takeWhile (fun c => c != 10) = seg at hk
  have hw := write_bytes_append [] (List.replicate (k + 1) 0) seg
  simp only [List.nil_append, List.length_nil, List.length_replicate] at hw
  rw [hw, List.take_of_length_le (by omega)]
  have : (List.replicate (k + 1) 0).drop seg.length = [0] := by
    rw [← hk]; simp
  rw [this, hk, set_append_length]

theorem cstr_at_eq_nil_of_peek {content : List Nat} {pos : Nat} (h : peek content pos = 0) :
    cstr_at content pos = [] := by
  rw [peek_eq_head_cstr_at] at h
  cases hc : cstr_at content pos with
  | nil => rfl
  | cons c t =>
    rw [hc] at h
    exact absurd h (cstr_at_ne_zero content pos c (by rw [hc]; simp))

theorem next_alloc_length (allocs : List Bool) : (next_alloc allocs).2.length ≤ allocs.length := by
  cases allocs <;> simp [next_alloc]

theorem next_alloc_false_length {allocs : List Bool} (h : (next_alloc allocs).1 = false) :
    (next_alloc allocs).2.length < allocs.length := by
  cases allocs with
  | nil => simp [next_alloc] at h
  | cons b bs => simp [next_alloc]

/-- The loop of `parse_lines`: the strings stored are the lines of the unread text, as many
as the array still takes.  Failed allocations only cost iterations. -/
theorem parse_lines_loop_spec (content : List Nat) (max_lines : Int) :
    ∀ (fuel pos : Nat) (lines : List (List Nat)) (allocs : List Bool),
      (cstr_at content pos).length + allocs.length < fuel →
      (parse_lines_loop fuel content max_lines pos lines allocs).map cstr
        = lines.map cstr ++
          (split_lines (cstr_at content pos)).take (max_lines.toNat - lines.length) := by
  intro fuel
  induction fuel with
  | zero => intro pos lines allocs h; omega
  | succ fuel ih =>
    intro pos lines allocs hfuel
    rw [parse_lines_loop]
    by_cases hcond : peek content pos ≠ 0 ∧ (lines.length : Int) < max_lines
    · obtain ⟨hpk, hcount⟩ := hcond
      simp only [hpk, hcount, ne_eq, not_false_eq_true, and_self, if_true]
      rw [line_end_eq]
      generalize hk : ((cstr_at content pos).takeWhile (fun c => c != 10)).length = k
      have hnext := cstr_at_next content pos k hk.symm
      have hcopy := line_copy_eq content pos k hk.symm
      have hne : cstr_at content pos ≠ [] := by
        intro he
        rw [peek_eq_head_cstr_at, he] at hpk
        exact hpk rfl
      have hshort : ((cstr_at content pos).drop (k + 1)).length < (cstr_at content pos).length := by
        have : 0 < (cstr_at content pos).length := List.length_pos.mpr hne
        simp; omega
      have hunf := split_lines_unfold (cstr_at content pos)
      rw [hk] at hunf
      have hroom : max_lines.toNat - lines.length
          = (max_lines.toNat - (lines.length + 1)) + 1 := by omega
      simp only [Nat.add_sub_cancel_left]
      generalize hnx : (if peek content (pos + k) = 10 then pos + k + 1 else pos + k) = next
        at hnext
      by_cases hk0 : k > 0
      · simp only [hk0, if_true]
        by_cases ha : (next_alloc allocs).1 = false
        · rw [if_pos ha]
          exact ih pos lines _ (by have := next_alloc_false_length ha; omega)
        · rw [if_neg ha, hcopy]
          have hz : ∀ c ∈ (cstr_at content pos).takeWhile (fun c => c != 10), c ≠ 0 :=
            fun c hc => cstr_at_ne_zero content pos c (List.takeWhile_subset _ hc)
          have ha2 := next_alloc_length allocs
          by_cases ht : trim ((cstr_at content pos).takeWhile (fun c => c != 10)) = []
          · rw [trim_line_blank _ [] hz ht]
            simp only []
            rw [ih next lines _ (by rw [hnext]; omega), hnext, hunf]
            simp [accepted, ht]
          · obtain ⟨stored, hst, hcs⟩ := trim_line_some _ [] hz ht
            rw [hst]
            simp only []
            rw [ih next (lines ++ [stored]) _ (by rw [hnext]; omega), hnext, hunf]
            simp only [accepted, ht, if_false, List.map_append, List.map_cons, List.map_nil, hcs,
              List.length_append, List.length_singleton]
            rw [hroom]
            simp
      · have hk00 : k = 0 := by omega
        simp only [hk0, if_false]
        rw [ih next lines allocs (by rw [hnext]; omega), hnext, hunf]
        have hseg : (cstr_at content pos).takeWhile (fun c => c != 10) = [] :=
          List.length_eq_zero.mp (by omega)
        rw [hseg]
        simp [accepted, trim]
    · simp only [hcond, if_false]
      rw [not_and_or] at hcond
      rcases hcond with h | h
      · have : cstr_at content pos = [] := cstr_at_eq_nil_of_peek (by simpa using h)
        rw [this, split_lines_nil]; simp
      · have : max_lines.toNat - lines.length = 0 := by omega
        rw [this]; simp

/-- What `parse_lines` returns when the array is allocated. -/
theorem parse_lines_strings (content : List Nat) (max_lines : Int) (allocs : List Bool) :
    ∃ lines, parse_lines content max_lines true allocs = some lines ∧
      lines.map cstr = (split_lines (cstr content)).take max_lines.toNat := by
  refine ⟨parse_lines_loop (content.length + allocs.length + 1) content max_lines 0 [] allocs,
    by simp [parse_lines], ?_⟩
  have h := parse_lines_loop_spec content max_lines (content.length + allocs.length + 1) 0 []
    allocs (by
      have := cstr_at_length_le content 0
      simp at this; omega)
  simpa using h

theorem parse_lines_none (content : List Nat) (max_lines : Int) (allocs : List Bool) :
    parse_lines content max_lines false allocs = none := by
  simp [parse_lines]

/-- A trimmed segment that is not empty starts and ends with a byte that is no whitespace. -/
theorem trim_ends (seg : List Nat) (h : trim seg ≠ []) :
    isspace ((trim seg).head h) = false ∧ isspace ((trim seg).getLast h) = false := by
  constructor
  · have hd : seg.dropWhile isspace ≠ [] := by
      intro he; apply h; unfold trim; rw [he]; simp
    have h1 := List.head_dropWhile_not isspace seg hd
    have hp : trim seg <+: seg.dropWhile isspace := List.rdropWhile_prefix _ _
    obtain ⟨t, ht⟩ := hp
    have : (trim seg).head h = (seg.dropWhile isspace).head hd := by
      obtain ⟨c, r, hcr⟩ := List.exists_cons_of_ne_nil h
      simp only [← ht, hcr, List.cons_append, List.head_cons]
    rw [this]; simpa using h1
  · have := List.rdropWhile_last_not isspace (seg.dropWhile isspace) h
    simpa using this

theorem trim_subset (seg : List Nat) : ∀ c ∈ trim seg, c ∈ seg := by
  intro c hc
  have h1 : c ∈ seg.dropWhile isspace := (List.rdropWhile_prefix _ _).subset hc
  exact (List.dropWhile_suffix _).subset h1

/-- Every line of `split_lines` is a trimmed, non-empty piece without `\n`. -/
theorem mem_split_lines (n : Nat) : ∀ (text : List Nat), text.length ≤ n → ∀ s ∈ split_lines text,
    ∃ seg, (∀ c ∈ seg, c ≠ 10) ∧ trim seg = s ∧ s ≠ [] := by
  induction n with
  | zero =>
    intro text hl s hs
    have : text = [] := List.length_eq_zero.mp (by omega)
    subst this
    rw [split_lines_nil] at hs; simp at hs
  | succ n ih =>
    intro text hl s hs
    by_cases hne : text = []
    · subst hne; rw [split_lines_nil] at hs; simp at hs
    · rw [split_lines_unfold] at hs
      rcases List.mem_append.mp hs with h | h
      · unfold accepted at h
        split at h
        · simp at h
        · rename_i ht
          simp at h
          refine ⟨_, ?_, h.symm, by rw [h]; exact ht⟩
          intro c hc
          have := List.mem_takeWhile_imp hc
          simpa using this
      · refine ih _ ?_ s h
        have : 0 < text.length := List.length_pos.mpr hne
        simp; omega

theorem split_lines_eq_nil_iff (n : Nat) : ∀ (text : List Nat), text.length ≤ n →
    (split_lines text = [] ↔ ∀ c ∈ text, isspace c = true) := by
  induction n with
  | zero =>
    intro text hl
    have : text = [] := List.length_eq_zero.mp (by omega)
    subst this
    simp [split_lines_nil]
  | succ n ih =>
    intro text hl
    by_cases hne : text = []
    · subst hne; simp [split_lines_nil]
    · have hlen : (text.drop ((text.takeWhile (fun c => c != 10)).length + 1)).length ≤ n := by
        have : 0 < text.length := List.length_pos.mpr hne
        simp; omega
      have hih := ih _ hlen
      rw [split_lines_unfold, List.append_eq_nil, hih]
      have hacc : accepted (text.takeWhile (fun c => c != 10)) = [] ↔
          ∀ c ∈ text.takeWhile (fun c => c != 10), isspace c = true := by
        unfold accepted
        constructor
        · intro h
          split at h
          · rename_i ht
            have h1 : ∀ c ∈ (text.takeWhile (fun c => c != 10)).dropWhile isspace, isspace c = true :=
              List.rdropWhile_eq_nil_iff.mp ht
            intro c hc
            by_cases hs : isspace c = true
            · exact hs
            · have hd : (text.takeWhile (fun c => c != 10)).dropWhile isspace = [] := by
                by_contra hne2
                have := List.head_dropWhile_not isspace _ hne2
                exact absurd (h1 _ (List.head_mem hne2)) (by simpa using this)
              exact List.dropWhile_eq_nil_iff.mp hd c hc
          · simp at h
        · intro h
          have : trim (text.takeWhile (fun c => c != 10)) = [] := by
            unfold trim
            rw [List.dropWhile_eq_nil_iff.mpr h]; simp
          simp [this]
      rw [hacc]
      by_cases h10 : 10 ∈ text
      · have hs := split_at_first h10
        constructor
        · rintro ⟨h1, h2⟩ c hc
          rw [hs] at hc
          rcases List.mem_append.mp hc with h | h
          · exact h1 c h
          · rcases List.mem_cons.mp h with h | h
            · subst h; decide
            · exact h2 c h
        · intro h
          exact ⟨fun c hc => h c (List.takeWhile_subset _ hc),
            fun c hc => h c (List.drop_subset _ _ hc)⟩
      · rw [takeWhile_length_of_not_mem h10, List.drop_of_length_le (by omega)]
        simp

/-! ## The output buffer -/

theorem next_alloc_of_all_succeed {allocs : List Bool} (h : all_succeed allocs) :
    (next_alloc allocs).1 = true ∧ all_succeed (next_alloc allocs).2 := by
  cases allocs with
  | nil => exact ⟨rfl, h⟩
  | cons b bs =>
    exact ⟨h b (by simp), fun c hc => h c (List.mem_cons_of_mem _ hc)⟩

/-- Lines 228-230 (and 237-239): the formatted line `s` is copied behind `acc`. -/
theorem copy_line (buf acc s : List Nat) (hs : ∀ c ∈ s, c ≠ 0) (hacc : buf.take acc.length = acc)
    (hroom : acc.length + s.length < buf.length) :
    (memcpy buf acc.length (s ++ [0]) 0 (strlen (s ++ [0]) 0)).set
        (acc.length + strlen (s ++ [0]) 0) 0
      = acc ++ s ++ 0 :: buf.drop (acc.length + s.length + 1) := by
  have hc : cstr_at (s ++ [0]) 0 = s := cstr_append_zero hs []
  have hl : strlen (s ++ [0]) 0 = s.length := by rw [strlen_eq, hc]
  have hr : read_bytes (s ++ [0]) 0 s.length = s := by
    rw [read_bytes_take _ _ _ (by rw [hc]), hc, List.take_length]
  unfold memcpy
  rw [hl, hr]
  have hw := write_bytes_append acc (buf.drop acc.length) s
  have hb : acc ++ buf.drop acc.length = buf := by
    nth_rewrite 1 [← hacc]; exact List.take_append_drop _ _
  rw [hb] at hw
  rw [hw, List.take_of_length_le (by simp; omega)]
  have hd : (buf.drop acc.length).drop s.length = buf.drop (acc.length + s.length) := by
    rw [List.drop_drop]
  rw [hd]
  obtain ⟨y, r, hyr⟩ : ∃ y r, buf.drop (acc.length + s.length) = y :: r := by
    cases h : buf.drop (acc.length + s.length) with
    | nil =>
      have := congrArg List.length h
      simp at this; omega
    | cons y r => exact ⟨y, r, rfl⟩
  have hr2 : buf.drop (acc.length + s.length + 1) = r := by
    rw [← List.drop_drop, hyr]; rfl
  rw [hyr, hr2]
  have : acc.length + s.length = (acc ++ s).length := by simp
  rw [this, set_append_length]

theorem holds_after_copy (buf acc s : List Nat) (size : Nat) (hs : ∀ c ∈ s, c ≠ 0)
    (hlen : buf.length = size) (hacc : buf.take acc.length = acc)
    (hroom : acc.length + s.length < size) :
    Holds ⟨(memcpy buf acc.length (s ++ [0]) 0 (strlen (s ++ [0]) 0)).set
        (acc.length + strlen (s ++ [0]) 0) 0, acc.length + strlen (s ++ [0]) 0, size⟩
      (acc ++ s) := by
  have hl : strlen (s ++ [0]) 0 = s.length := by
    rw [strlen_eq]; exact congrArg List.length (cstr_append_zero hs [])
  rw [copy_line buf acc s hs hacc (by omega), hl]
  refine ⟨?_, by simp, by simp; omega, ?_, ?_⟩
  · simp; omega
  · have : (acc ++ s).length = (acc ++ s).length + 0 := rfl
    rw [List.take_left' rfl]
  · rw [peek_append_length]; rfl

/-- One pass of lines 224-241 when no `realloc` fails. -/
theorem append_line_holds (junk : Nat) (st : Assembler) (acc s : List Nat) (allocs : List Bool)
    (hs : ∀ c ∈ s, c ≠ 0) (h : Holds st acc) (ha : all_succeed allocs) :
    Holds (append_line junk st (s ++ [0]) allocs).1 (acc ++ s) ∧
      all_succeed (append_line junk st (s ++ [0]) allocs).2 := by
  obtain ⟨hlen, hpos, hlt, htake, hpk⟩ := h
  have hl : strlen (s ++ [0]) 0 = s.length := by
    rw [strlen_eq]; exact congrArg List.length (cstr_append_zero hs [])
  unfold append_line
  by_cases hfit : st.current_output_position + strlen (s ++ [0]) 0 < st.result_buffer_size
  · simp only [hfit, if_true]
    refine ⟨?_, ha⟩
    rw [hpos]
    exact holds_after_copy _ acc s _ hs hlen htake (by rw [hpos, hl] at hfit; exact hfit)
  · simp only [hfit, if_false]
    obtain ⟨h1, h2⟩ := next_alloc_of_all_succeed ha
    simp only [h1, if_true]
    refine ⟨?_, h2⟩
    rw [hpos]
    have hgrow : realloc st.formatted_result (acc.length + strlen (s ++ [0]) 0 + 1024) junk
        = st.formatted_result ++ List.replicate
          (acc.length + strlen (s ++ [0]) 0 + 1024 - st.formatted_result.length) junk := by
      unfold realloc
      rw [List.take_of_length_le (by rw [hl]; omega)]
    rw [hgrow]
    refine holds_after_copy _ acc s _ hs ?_ ?_ ?_
    · rw [hl]; simp; omega
    · rw [List.take_append_of_le_length (by omega)]
      exact htake
    · rw [hl]; omega

/-! ## The loop of main -/

theorem rewrite_body_ne_zero (line : List Nat) : ∀ c ∈ rewrite_body (cstr line), c ≠ 0 := by
  rw [← strip_line_spec]; exact cstr_at_ne_zero _ _

theorem format_line_eq_entry (n : Int) (line : List Nat) :
    format_line n (rewrite_body line) = entry n line ++ ascii "\n\n" := rfl

theorem processed_text_eq (n : Int) (line : List Nat) :
    processed_text n line = entry n (cstr line) ++ ascii "\n\n" := by
  unfold processed_text
  rw [process_line_result]
  simp only []
  rw [← format_line_eq_entry]
  exact cstr_append_zero (format_line_ne_zero n _ (rewrite_body_ne_zero line)) []

theorem processed_text_ne_zero (n : Int) (line : List Nat) : ∀ c ∈ processed_text n line, c ≠ 0 := by
  rw [processed_text_eq, ← format_line_eq_entry]
  exact format_line_ne_zero n _ (rewrite_body_ne_zero line)

theorem concat_processed_ne_zero (lines : List (List Nat)) :
    ∀ (n : Int), ∀ c ∈ concat_processed n lines, c ≠ 0 := by
  induction lines with
  | nil => intro n c hc; simp [concat_processed] at hc
  | cons l rest ih =>
    intro n c hc
    simp only [concat_processed, List.mem_append] at hc
    rcases hc with h | h
    · exact processed_text_ne_zero n l c h
    · exact ih _ c h

theorem concat_processed_eq (lines : List (List Nat)) : ∀ (n : Int),
    concat_processed n lines
      = ((entries_from n (lines.map cstr)).map (fun e => e ++ ascii "\n\n")).flatten := by
  induction lines with
  | nil => intro n; rfl
  | cons l rest ih =>
    intro n
    simp only [concat_processed, List.map_cons, entries_from, List.flatten_cons]
    rw [ih, processed_text_eq]

/-- The `for` loop of `main` when no allocation fails: every line of the array is
appended, numbered in order. -/
theorem assemble_loop_holds (junk : Nat) (lines : List (List Nat)) :
    ∀ (n : Int) (st : Assembler) (acc : List Nat) (allocs : List Bool),
      Holds st acc → all_succeed allocs →
      Holds (assemble_loop junk lines n st allocs) (acc ++ concat_processed n lines) := by
  induction lines with
  | nil => intro n st acc allocs h _; simpa [assemble_loop, concat_processed] using h
  | cons l rest ih =>
    intro n st acc allocs h ha
    obtain ⟨h1, h2⟩ := next_alloc_of_all_succeed ha
    have hp := process_line_result l n (st.result_buffer_size - st.current_output_position)
    have hz : ∀ c ∈ format_line n (rewrite_body (cstr l)), c ≠ 0 :=
      format_line_ne_zero n _ (rewrite_body_ne_zero l)
    obtain ⟨h3, h4⟩ := append_line_holds junk st acc _ (next_alloc allocs).2 hz h h2
    have hpt : processed_text n l = format_line n (rewrite_body (cstr l)) := by
      rw [processed_text_eq, format_line_eq_entry]
    rw [assemble_loop]
    simp only [h1, hp]
    have := ih (n + 1) _ _ _ h3 h4
    rw [concat_processed, hpt, ← List.append_assoc]
    exact this

/-- The loop of lines 247-249 on a buffer that starts with `acc`. -/
theorem strip_newlines_eq (buf : List Nat) : ∀ (pos : Nat), pos ≤ buf.length →
    strip_newlines buf pos = ((buf.take pos).rdropWhile (fun c => c == 10)).length := by
  intro pos
  induction pos with
  | zero => intro _; simp [strip_newlines]
  | succ pos ih =>
    intro hle
    have hlt : pos < buf.length := by omega
    have ht : buf.take (pos + 1) = buf.take pos ++ [peek buf pos] := by
      rw [List.take_succ]
      congr 1
      unfold peek
      rw [List.getD_eq_getElem?_getD]
      cases h : buf[pos]? with
      | none => simp at h; omega
      | some v => rfl
    rw [ht, List.rdropWhile_concat, strip_newlines]
    by_cases hp : peek buf pos = 10
    · simp only [hp, if_true, beq_self_eq_true]
      rw [ih (by omega)]
    · simp only [hp, if_false]
      have : ¬ ((peek buf pos == 10) = true) := by simpa using hp
      simp only [this, if_false]
      simp; omega

/-- Line 250: the string left in the buffer after the trailing newlines are cut. -/
theorem cstr_after_strip (st : Assembler) (acc : List Nat) (h : Holds st acc)
    (hz : ∀ c ∈ acc, c ≠ 0) :
    cstr (st.formatted_result.set
        (strip_newlines st.formatted_result st.current_output_position) 0)
      = acc.rdropWhile (fun c => c == 10) := by
  obtain ⟨hlen, hpos, hlt, htake, hpk⟩ := h
  rw [hpos, strip_newlines_eq _ _ (by omega), htake]
  obtain ⟨t, ht⟩ : acc.rdropWhile (fun c => c == 10) <+: acc := List.rdropWhile_prefix _ _
  generalize acc.rdropWhile (fun c => c == 10) = r at ht
  have hrz : ∀ c ∈ r, c ≠ 0 := fun c hc => hz c (by rw [← ht]; simp [hc])
  have hb : st.formatted_result = r ++ (t ++ st.formatted_result.drop acc.length) := by
    rw [← List.append_assoc, ht]
    nth_rewrite 1 [← htake]
    exact (List.take_append_drop _ _).symm
  obtain ⟨y, q, hyq⟩ : ∃ y q, t ++ st.formatted_result.drop acc.length = y :: q := by
    cases h : t ++ st.formatted_result.drop acc.length with
    | nil =>
      have := congrArg List.length h
      simp at this; omega
    | cons y q => exact ⟨y, q, rfl⟩
  rw [hb, hyq, set_append_length]
  exact cstr_append_zero hrz q

theorem initial_assembler_holds (env : Env) (h : 0 < env.file_size) :
    Holds (initial_assembler env) [] := by
  unfold initial_assembler Holds
  have hs : 0 < (env.file_size + 1).toNat * 2 := by omega
  refine ⟨by simp, by simp, by simpa using hs, by simp, ?_⟩
  simp only [List.length_nil]
  cases hn : (env.file_size + 1).toNat * 2 with
  | zero => omega
  | succ k => rfl

theorem cstr_of_holds (st : Assembler) (acc : List Nat) (h : Holds st acc)
    (hz : ∀ c ∈ acc, c ≠ 0) : cstr st.formatted_result = acc := by
  obtain ⟨hlen, hpos, hlt, htake, hpk⟩ := h
  have hb : st.formatted_result = acc ++ st.formatted_result.drop acc.length := by
    have := (List.take_append_drop acc.length st.formatted_result).symm
    rwa [htake] at this
  have hp : peek (st.formatted_result.drop acc.length) 0 = 0 := by
    rw [← peek_eq_head_drop]; exact hpk
  rw [hb]
  cases hd : st.formatted_result.drop acc.length with
  | nil => rw [List.append_nil]; exact cstr_of_ne_zero hz
  | cons y q =>
    rw [hd, peek_cons_zero] at hp
    subst hp
    exact cstr_append_zero hz q

theorem drop_dot_suffix (s : List Nat) : drop_dot s <:+ s := by
  unfold drop_dot
  split
  · exact List.suffix_cons _ _
  · exact List.suffix_refl _

theorem rewrite_body_suffix (line : List Nat) : rewrite_body line <:+ line := by
  unfold rewrite_body
  have h1 : line.dropWhile isspace <:+ line := List.dropWhile_suffix _
  have h2 : (line.dropWhile isspace).dropWhile isdigit <:+ line :=
    (List.dropWhile_suffix _).trans h1
  have h3 := (drop_dot_suffix ((line.dropWhile isspace).dropWhile isdigit)).trans h2
  have h4 := (List.dropWhile_suffix isspace
    (l := drop_dot ((line.dropWhile isspace).dropWhile isdigit))).trans h3
  simp only []
  split
  · exact (List.dropWhile_suffix _).trans (((List.drop_suffix _ _).trans
      (List.dropWhile_suffix _)).trans h4)
  · exact (List.dropWhile_suffix _).trans h4

/-- The entry of a line without trailing whitespace does not end with `\n`. -/
theorem entry_last (n : Int) (line : List Nat) (hl : ends_tidy line) :
    ∃ e c, entry n line = e ++ [c] ∧ c ≠ 10 := by
  rcases List.eq_nil_or_concat (rewrite_body line) with h | ⟨b, c, h⟩
  all_goals try rw [List.concat_eq_append] at h
  · refine ⟨print_int n ++ [46], 32, ?_, by decide⟩
    unfold entry
    rw [h]
    simp [ascii]
  · refine ⟨print_int n ++ ascii ". " ++ b, c, ?_, ?_⟩
    · unfold entry; rw [h]; simp
    · obtain ⟨t, ht⟩ := rewrite_body_suffix line
      rw [h] at ht
      have hne : line ≠ [] := by rw [← ht]; simp
      have hlast : line.getLast hne = c := by
        subst ht; simp
      have := hl hne
      rw [hlast] at this
      intro hc; subst hc
      exact absurd this (by decide)

/-- The separated entries and their concatenation with a separator behind each. -/
theorem entries_layout (lines : List (List Nat)) : ∀ (n : Int), lines ≠ [] →
    (∀ l ∈ lines, ends_tidy l) →
    ∃ x c, c ≠ 10 ∧
      List.intercalate (ascii "\n\n") (entries_from n lines) = x ++ [c] ∧
      ((entries_from n lines).map (fun e => e ++ ascii "\n\n")).flatten
        = x ++ [c] ++ ascii "\n\n" := by
  induction lines with
  | nil => intro n h; exact absurd rfl h
  | cons l rest ih =>
    intro n _ hall
    obtain ⟨e, c, he, hc⟩ := entry_last n l (hall l (by simp))
    cases rest with
    | nil =>
      refine ⟨e, c, hc, ?_, ?_⟩
      · simp [entries_from, List.intercalate, he]
      · simp [entries_from, he]
    | cons l2 rest2 =>
      obtain ⟨x, c2, hc2, h1, h2⟩ := ih (n + 1) (by simp)
        (fun l hl => hall l (List.mem_cons_of_mem _ hl))
      refine ⟨entry n l ++ ascii "\n\n" ++ x, c2, hc2, ?_, ?_⟩
      · have : List.intercalate (ascii "\n\n") (entries_from n (l :: l2 :: rest2))
            = entry n l ++ ascii "\n\n"
              ++ List.intercalate (ascii "\n\n") (entries_from (n + 1) (l2 :: rest2)) := by
          simp [entries_from, List.intercalate]
        rw [this, h1]; simp
      · have : ((entries_from n (l :: l2 :: rest2)).map (fun e => e ++ ascii "\n\n")).flatten
            = entry n l ++ ascii "\n\n" ++
              ((entries_from (n + 1) (l2 :: rest2)).map (fun e => e ++ ascii "\n\n")).flatten := by
          simp [entries_from]
        rw [this, h2]; simp

theorem rdropWhile_newlines (x : List Nat) (c : Nat) (hc : c ≠ 10) :
    (x ++ [c] ++ ascii "\n\n").rdropWhile (fun c => c == 10) = x ++ [c] := by
  have : x ++ [c] ++ ascii "\n\n" = ((x ++ [c]) ++ [10]) ++ [10] := by simp [ascii]
  rw [this, List.rdropWhile_concat_pos _ _ _ (by simp), List.rdropWhile_concat_pos _ _ _ (by simp),
    List.rdropWhile_concat_neg _ _ _ (by simpa using hc)]

/-- The lines `parse_lines` stores have no trailing whitespace. -/
theorem parse_lines_tidy (content : List Nat) (max_lines : Int) (array_ok : Bool)
    (allocs : List Bool) (lines : List (List Nat))
    (h : parse_lines content max_lines array_ok allocs = some lines) :
    ∀ l ∈ lines.map cstr, ∃ seg, (∀ c ∈ seg, c ≠ 10) ∧ trim seg = l ∧ l ≠ [] := by
  cases array_ok with
  | false => rw [parse_lines_none] at h; exact absurd h (by simp)
  | true =>
    obtain ⟨lines2, h1, h2⟩ := parse_lines_strings content max_lines allocs
    rw [h] at h1
    have : lines = lines2 := by simpa using h1
    subst this
    intro l hl
    rw [h2] at hl
    exact mem_split_lines _ _ (le_refl _) l (List.mem_of_mem_take hl)

theorem lines_tidy_of_parse (content : List Nat) (max_lines : Int) (array_ok : Bool)
    (allocs : List Bool) (lines : List (List Nat))
    (h : parse_lines content max_lines array_ok allocs = some lines) :
    ∀ l ∈ lines.map cstr, ends_tidy l := by
  intro l hl
  obtain ⟨seg, _, hseg, hne⟩ := parse_lines_tidy content max_lines array_ok allocs lines h l hl
  intro h2
  have := (trim_ends seg (by rw [hseg]; exact hne)).2
  simpa [hseg] using this

/-- The buffer at line 250 when no allocation of the `for` loop fails. -/
theorem cstr_assemble (env : Env) (lines : List (List Nat)) (hsize : 0 < env.file_size)
    (hloop : all_succeed env.loop_allocs) :
    cstr (assemble env lines) = (concat_processed 1 lines).rdropWhile (fun c => c == 10) := by
  have h := assemble_loop_holds env.junk lines 1 (initial_assembler env) [] env.loop_allocs
    (initial_assembler_holds env hsize) hloop
  rw [List.nil_append] at h
  exact cstr_after_strip _ _ h (concat_processed_ne_zero lines 1)

/-- The value of `main` when every step before the `for` loop succeeds. -/
theorem main_eq (env : Env) (lines : List (List Nat))
    (hr : env.readable = true) (hsize : 0 < env.file_size) (hc : env.content_ok = true)
    (hres : env.result_ok = true) (hw : env.writable = true)
    (hlines : parse_lines (remove_special_chars (read_file env))
      (count_newlines (remove_special_chars (read_file env)) + 2) env.array_ok env.line_allocs
      = some lines)
    (hne : lines ≠ []) :
    main env = ⟨0, some (cstr (assemble env lines))⟩ := by
  have hl : lines.length ≠ 0 := fun h => hne (List.length_eq_zero.mp h)
  have hs : ¬ env.file_size ≤ 0 := by omega
  unfold main
  simp only [hr, hc, hres, hw, hlines, hl, hs, Bool.true_eq_false, if_false]

theorem final_text (env : Env) (lines : List (List Nat))
    (hsize : 0 < env.file_size) (hloop : all_succeed env.loop_allocs)
    (htidy : ∀ l ∈ lines.map cstr, ends_tidy l) (hne : lines ≠ []) :
    cstr (assemble env lines)
        = List.intercalate (ascii "\n\n") (entries_from 1 (lines.map cstr)) ∧
      concat_processed 1 lines
        = List.intercalate (ascii "\n\n") (entries_from 1 (lines.map cstr)) ++ ascii "\n\n" ∧
      (List.intercalate (ascii "\n\n") (entries_from 1 (lines.map cstr))).getLast? ≠ some 10 := by
  obtain ⟨x, c, hc, h1, h2⟩ := entries_layout (lines.map cstr) 1 (by simpa using hne) htidy
  rw [cstr_assemble env lines hsize hloop, concat_processed_eq, h2, h1,
    rdropWhile_newlines x c hc]
  refine ⟨rfl, rfl, ?_⟩
  simp [hc]

/-! ## The claims -/

/-- C1: for every line buffer and every sequence number, `process_line` (with its `malloc`
succeeding) returns the buffer that holds exactly `"<n>. " ++ body ++ "\n\n"` and the
terminator, where `body` is `rewrite_body` of the line: leading whitespace skipped, then a
run of digits, one `.` if present and whitespace, then everything up to and including the
first `:` if there is one, then whitespace.  The line `"3. Introduction: hello world"` with
number 1 gives `"1. hello world\n\n"`.  The digits printed for a number that is not
negative denote that number. -/
theorem process_line_spec (line : List Nat) (n : Int) (max_line_length : Nat) :
    (process_line line n max_line_length true).formatted_line
        = some (print_int n ++ ascii ". " ++ rewrite_body (cstr line) ++ ascii "\n\n" ++ [0]) ∧
      cstr (print_int n ++ ascii ". " ++ rewrite_body (cstr line) ++ ascii "\n\n" ++ [0])
        = print_int n ++ ascii ". " ++ rewrite_body (cstr line) ++ ascii "\n\n" ∧
      digits_value (print_int (n.toNat : Int)) = n.toNat ∧
      (process_line (ascii "3. Introduction: hello world" ++ [0]) 1 max_line_length
          true).formatted_line
        = some (ascii "1. hello world\n\n" ++ [0]) := by
  refine ⟨process_line_result line n max_line_length, ?_, print_int_value _, ?_⟩
  · exact cstr_append_zero (format_line_ne_zero n _ (rewrite_body_ne_zero line)) []
  · rw [process_line_result]
    decide

/-- C1 applied to the line `"7 x:y"` with the number 3. -/
theorem process_line_spec_example :
    (process_line (ascii "7 x:y" ++ [0]) 3 0 true).formatted_line
      = some (ascii "3. y\n\n" ++ [0]) :=
  (process_line_spec (ascii "7 x:y" ++ [0]) 3 0).1

theorem entries_from_getElem? (lines : List (List Nat)) : ∀ (n : Int) (i : Nat),
    (entries_from n lines)[i]? = (lines[i]?).map (fun l => entry (n + i) l) := by
  induction lines with
  | nil => intro n i; simp [entries_from]
  | cons l rest ih =>
    intro n i
    cases i with
    | zero => simp [entries_from]
    | succ i =>
      simp only [entries_from, List.getElem?_cons_succ, ih]
      have : n + 1 + (i : Int) = n + ((i + 1 : Nat) : Int) := by push_cast; ring
      rw [this]

/-- C2: when no allocation fails and the file can be read and written, a source that yields
the non-empty line array `lines` makes `main` write exactly the entries
`"<i>. " ++ body_i` for `i = 1..n`, separated by `"\n\n"`; the text written does not end
with `\n`, and the buffer before the trailing newlines are cut is that text followed by the
two newlines of the last entry. -/
theorem main_final_text (env : Env) (lines : List (List Nat))
    (hr : env.readable = true) (hsize : 0 < env.file_size) (hc : env.content_ok = true)
    (hres : env.result_ok = true) (hw : env.writable = true)
    (hloop : all_succeed env.loop_allocs)
    (hlines : parse_lines (remove_special_chars (read_file env))
      (count_newlines (remove_special_chars (read_file env)) + 2) env.array_ok env.line_allocs
      = some lines)
    (hne : lines ≠ []) :
    main env
        = ⟨0, some (List.intercalate (ascii "\n\n") (entries_from 1 (lines.map cstr)))⟩ ∧
      (List.intercalate (ascii "\n\n") (entries_from 1 (lines.map cstr))).getLast? ≠ some 10 ∧
      cstr (assemble_loop env.junk lines 1 (initial_assembler env)
          env.loop_allocs).formatted_result
        = List.intercalate (ascii "\n\n") (entries_from 1 (lines.map cstr)) ++ ascii "\n\n" ∧
      (∀ i : Nat, (entries_from 1 (lines.map cstr))[i]?
        = (lines[i]?).map
            (fun l => print_int (1 + i) ++ ascii ". " ++ rewrite_body (cstr l))) := by
  have htidy := lines_tidy_of_parse _ _ _ _ _ hlines
  obtain ⟨h1, h2, h3⟩ := final_text env lines hsize hloop htidy hne
  refine ⟨?_, h3, ?_, ?_⟩
  · rw [main_eq env lines hr hsize hc hres hw hlines hne, h1]
  · have h := assemble_loop_holds env.junk lines 1 (initial_assembler env) [] env.loop_allocs
      (initial_assembler_holds env hsize) hloop
    rw [List.nil_append] at h
    rw [cstr_of_holds _ _ h (concat_processed_ne_zero lines 1), h2]
  · intro i
    rw [entries_from_getElem?, List.getElem?_map]
    cases lines[i]? <;> rfl

/-- C2 applied to the file `"first\nsecond"`. -/
theorem main_final_text_example :
    main (plain_env (ascii "first\nsecond")) = ⟨0, some (ascii "1. first\n\n2. second")⟩ :=
  (main_final_text (plain_env (ascii "first\nsecond"))
    [ascii "first" ++ [0], ascii "second" ++ [0]] rfl (by decide) rfl rfl rfl
    (by intro b hb; simp [plain_env] at hb) (by decide) (by decide)).1.trans (by decide)

/-- C3: when no allocation fails, the string in the output buffer after the `for` loop is
the concatenation, in order, of the strings `process_line` returns for the lines of the
array with the numbers `1, 2, ..., n`; the entry of the line at index `i` starts with the
decimal number `i + 1`, whatever the line holds. -/
theorem assemble_loop_numbers (env : Env) (lines : List (List Nat))
    (hsize : 0 < env.file_size) (hloop : all_succeed env.loop_allocs) :
    cstr (assemble_loop env.junk lines 1 (initial_assembler env)
          env.loop_allocs).formatted_result
        = concat_processed 1 lines ∧
      concat_processed 1 lines
        = ((entries_from 1 (lines.map cstr)).map (fun e => e ++ ascii "\n\n")).flatten ∧
      (∀ i : Nat, (entries_from 1 (lines.map cstr))[i]?
        = (lines[i]?).map
            (fun l => print_int (1 + i) ++ ascii ". " ++ rewrite_body (cstr l))) := by
  have h := assemble_loop_holds env.junk lines 1 (initial_assembler env) [] env.loop_allocs
    (initial_assembler_holds env hsize) hloop
  rw [List.nil_append] at h
  refine ⟨cstr_of_holds _ _ h (concat_processed_ne_zero lines 1), concat_processed_eq lines 1, ?_⟩
  intro i
  rw [entries_from_getElem?, List.getElem?_map]
  cases lines[i]? <;> rfl

/-- C3 applied to two lines that carry the numbers 7 and 3. -/
theorem assemble_loop_numbers_example :
    cstr (assemble_loop 170 [ascii "7. a" ++ [0], ascii "3. b" ++ [0]] 1
        (initial_assembler (plain_env (ascii "7. a\n3. b"))) []).formatted_result
      = ascii "1. a\n\n2. b\n\n" :=
  ((assemble_loop_numbers (plain_env (ascii "7. a\n3. b"))
    [ascii "7. a" ++ [0], ascii "3. b" ++ [0]] (by decide)
    (by intro b hb; simp [plain_env] at hb)).1).trans (by decide)

/-- C4: for every buffer, `remove_special_chars` leaves in it the string of the input with
every `*` and every `"` removed and all other bytes in their order; the result holds no
`*` and no `"`, is a subsequence of the input and no longer than it, and is empty when the
input is empty or made only of the two forbidden bytes. -/
theorem remove_special_chars_spec (content : List Nat) :
    cstr (remove_special_chars content)
        = (cstr content).filter (fun c => c != 42 && c != 34) ∧
      42 ∉ cstr (remove_special_chars content) ∧
      34 ∉ cstr (remove_special_chars content) ∧
      (cstr (remove_special_chars content)).Sublist (cstr content) ∧
      (cstr (remove_special_chars content)).length ≤ (cstr content).length ∧
      ((∀ c ∈ cstr content, c = 42 ∨ c = 34) → cstr (remove_special_chars content) = []) ∧
      cstr (remove_special_chars []) = [] := by
  have h : cstr (remove_special_chars content)
      = (cstr content).filter (fun c => c != 42 && c != 34) := cstr_remove_special_chars content
  refine ⟨h, ?_, ?_, ?_, ?_, ?_, by decide⟩
  · rw [h]; simp
  · rw [h]; simp
  · rw [h]; exact List.filter_sublist _
  · rw [h]; exact (List.filter_sublist _).length_le
  · intro hall
    rw [h, List.filter_eq_nil_iff]
    intro c hc
    rcases hall c hc with h1 | h1 <;> simp [h1]

/-- C4 applied to a buffer that holds only forbidden bytes. -/
theorem remove_special_chars_spec_example :
    cstr (remove_special_chars (ascii "*\"*" ++ [0])) = [] :=
  (remove_special_chars_spec (ascii "*\"*" ++ [0])).2.2.2.2.2.1 (by decide)

/-- C5: for every text and every `max_lines >= 0`, `parse_lines` (with the array allocated)
returns, in document order, the first `max_lines` of the lines obtained by cutting the text
at every `\n`, trimming each segment and discarding the segments that become empty; the
count is the length of that list and at most `max_lines`. -/
theorem parse_lines_spec (content : List Nat) (max_lines : Int) (allocs : List Bool)
    (hmax : 0 ≤ max_lines) :
    ∃ lines, parse_lines content max_lines true allocs = some lines ∧
      lines.map cstr = (split_lines (cstr content)).take max_lines.toNat ∧
      lines.length = ((split_lines (cstr content)).take max_lines.toNat).length ∧
      (lines.length : Int) ≤ max_lines := by
  obtain ⟨lines, h1, h2⟩ := parse_lines_strings content max_lines allocs
  have h3 : lines.length = ((split_lines (cstr content)).take max_lines.toNat).length := by
    rw [← h2]; simp
  refine ⟨lines, h1, h2, h3, ?_⟩
  rw [h3, List.length_take]
  omega

/-- C5 applied to a text with blank segments and the limit 2. -/
theorem parse_lines_spec_example :
    ∃ lines, parse_lines (ascii " a \n\n\tb\nc") 2 true [] = some lines ∧
      lines.map cstr = [ascii "a", ascii "b"] ∧
      lines.length = 2 ∧ (lines.length : Int) ≤ 2 := by
  obtain ⟨lines, h1, h2, h3, h4⟩ := parse_lines_spec (ascii " a \n\n\tb\nc") 2 [] (by decide)
  exact ⟨lines, h1, h2.trans (by decide), h3.trans (by decide), h4⟩

/-- C6: every line `parse_lines` returns is non-empty, starts and ends with a byte that is
no ASCII whitespace, and holds no `\n`. -/
theorem parse_lines_trimmed (content : List Nat) (max_lines : Int) (array_ok : Bool)
    (allocs : List Bool) (lines : List (List Nat))
    (h : parse_lines content max_lines array_ok allocs = some lines) :
    ∀ l ∈ lines, ∃ hne : cstr l ≠ [],
      isspace ((cstr l).head hne) = false ∧ isspace ((cstr l).getLast hne) = false ∧
      10 ∉ cstr l := by
  intro l hl
  obtain ⟨seg, hseg, htrim, hne⟩ := parse_lines_tidy content max_lines array_ok allocs lines h
    (cstr l) (List.mem_map_of_mem _ hl)
  refine ⟨hne, ?_, ?_, ?_⟩
  · have := (trim_ends seg (by rw [htrim]; exact hne)).1
    simpa [htrim] using this
  · have := (trim_ends seg (by rw [htrim]; exact hne)).2
    simpa [htrim] using this
  · intro h10
    rw [← htrim] at h10
    exact hseg 10 (trim_subset seg 10 h10) rfl

/-- C6 applied to a text with surrounding whitespace. -/
theorem parse_lines_trimmed_example :
    ∃ hne : cstr (ascii "a b" ++ [0, 32, 0]) ≠ [],
      isspace ((cstr (ascii "a b" ++ [0, 32, 0])).head hne) = false ∧
      isspace ((cstr (ascii "a b" ++ [0, 32, 0])).getLast hne) = false ∧
      10 ∉ cstr (ascii "a b" ++ [0, 32, 0]) :=
  parse_lines_trimmed (ascii "a b  \n \n") 5 true [] [ascii "a b" ++ [0, 32, 0]] (by decide)
    (ascii "a b" ++ [0, 32, 0]) (List.mem_singleton.mpr rfl)

/-- C7: on the source `Step 1: *Do "this"*\nStep 2: Do that\n` the sanitizer leaves
`Step 1: Do this\nStep 2: Do that\n`, the splitter with the limit "newlines + 2" returns
the two lines `Step 1: Do this` and `Step 2: Do that`, rewriting them with the numbers 1
and 2 gives `1. Do this\n\n` and `2. Do that\n\n`, and `main` writes
`1. Do this\n\n2. Do that`. -/
theorem scenario_steps :
    cstr (remove_special_chars (ascii "Step 1: *Do \"this\"*\nStep 2: Do that\n" ++ [0]))
        = ascii "Step 1: Do this\nStep 2: Do that\n" ∧
      count_newlines
          (remove_special_chars (ascii "Step 1: *Do \"this\"*\nStep 2: Do that\n" ++ [0])) + 2
        = 4 ∧
      (parse_lines
          (remove_special_chars (ascii "Step 1: *Do \"this\"*\nStep 2: Do that\n" ++ [0]))
          4 true []).map (fun lines => lines.map cstr)
        = some [ascii "Step 1: Do this", ascii "Step 2: Do that"] ∧
      (process_line (ascii "Step 1: Do this" ++ [0]) 1 0 true).formatted_line
        = some (ascii "1. Do this\n\n" ++ [0]) ∧
      (process_line (ascii "Step 2: Do that" ++ [0]) 2 0 true).formatted_line
        = some (ascii "2. Do that\n\n" ++ [0]) ∧
      main (plain_env (ascii "Step 1: *Do \"this\"*\nStep 2: Do that\n"))
        = ⟨0, some (ascii "1. Do this\n\n2. Do that")⟩ := by
  refine ⟨by decide, by decide, by decide, by decide, by decide, by decide⟩

/-- C8, at the failing input: the line `.hello` is trimmed, holds no `:` and does not start
with a digit, yet `process_line` with the number 2 returns `2. hello\n\n`, not the line
numbered verbatim, `2. .hello\n\n`; a file that holds this line is written back without
the `.`. -/
theorem process_line_leading_dot :
    trim (ascii ".hello") = ascii ".hello" ∧ 58 ∉ ascii ".hello" ∧
      (ascii ".hello").head?.map isdigit = some false ∧
      (process_line (ascii ".hello" ++ [0]) 2 0 true).formatted_line
        = some (ascii "2. hello\n\n" ++ [0]) ∧
      (process_line (ascii ".hello" ++ [0]) 2 0 true).formatted_line
        ≠ some (ascii "2. " ++ ascii ".hello" ++ ascii "\n\n" ++ [0]) ∧
      main (plain_env (ascii "x\n.hello\n")) = ⟨0, some (ascii "1. x\n\n2. hello")⟩ := by
  refine ⟨by decide, by decide, by decide, by decide, by decide, by decide⟩

/-- C9: for every line made of one or more decimal digits followed by one `:`, and every
sequence number, `process_line` (with its `malloc` succeeding) returns the number and an
empty body, `"<n>. \n\n"`. -/
theorem process_line_digits_colon (digits line : List Nat) (n : Int) (max_line_length : Nat)
    (hne : digits ≠ []) (hd : ∀ d ∈ digits, isdigit d = true)
    (hline : cstr line = digits ++ [58]) :
    (process_line line n max_line_length true).formatted_line
      = some (print_int n ++ ascii ". \n\n" ++ [0]) := by
  rw [process_line_result, hline]
  have hbody : rewrite_body (digits ++ [58]) = [] := by
    obtain ⟨d, ds, rfl⟩ := List.exists_cons_of_ne_nil hne
    have hd0 : isdigit d = true := hd d (by simp)
    have hs : isspace d = false := by
      simp only [isdigit, isspace] at hd0 ⊢
      simp only [Bool.and_eq_true, decide_eq_true_eq] at hd0
      simp only [Bool.or_eq_false_iff, beq_eq_false_iff_ne, ne_eq, Bool.and_eq_false_iff,
        decide_eq_false_iff_not]
      omega
    have h1 : (d :: ds ++ [58]).dropWhile isspace = d :: ds ++ [58] := by
      simp [List.dropWhile_cons, hs]
    have h2 : (d :: ds ++ [58]).dropWhile isdigit = [58] := by
      have := @List.dropWhile_append_of_pos Nat isdigit (d :: ds) [58] hd
      rw [this]; decide
    unfold rewrite_body
    simp only [h1, h2]
    decide
  rw [hbody]
  simp [format_line, ascii]

/-- C9 applied to the line `42:` and the number 5. -/
theorem process_line_digits_colon_example :
    (process_line (ascii "42:" ++ [0]) 5 0 true).formatted_line
      = some (ascii "5. \n\n" ++ [0]) :=
  process_line_digits_colon (ascii "42") (ascii "42:" ++ [0]) 5 0 (by decide) (by decide)
    (by decide)

theorem count_newlines_nonneg (s : List Nat) : 0 ≤ count_newlines s := by
  induction s with
  | nil => simp [count_newlines]
  | cons c rest ih =>
    unfold count_newlines
    split
    · exact le_refl _
    · split <;> omega

/-- C10 as stated fails: with `max_lines = 0` the count is 0 for the text `a`, which is
neither empty nor blank. -/
theorem parse_lines_count_zero_limit :
    ¬ ((∃ lines, parse_lines (ascii "a") 0 true [] = some lines ∧ lines.length = 0) ↔
      (∀ c ∈ cstr (ascii "a"), isspace c = true)) := by
  intro h
  have := h.mp ⟨[], by decide, rfl⟩
  exact absurd (this 97 (by decide)) (by decide)

/-- C10, amended: for every text and every `max_lines >= 1`, `parse_lines` (with the array
allocated) returns count 0 if and only if the text is empty or all ASCII whitespace; and in
every run of `main` in which the line array is `NULL` or the count is 0, and in every run on
a source whose sanitized text is empty or blank, `main` returns 1 and `fputs` is not
reached. -/
theorem parse_lines_count_zero (content : List Nat) (max_lines : Int) (allocs : List Bool)
    (env : Env) (hmax : 1 ≤ max_lines) :
    ((∃ lines, parse_lines content max_lines true allocs = some lines ∧ lines.length = 0) ↔
        (∀ c ∈ cstr content, isspace c = true)) ∧
      ((parse_lines (remove_special_chars (read_file env))
          (count_newlines (remove_special_chars (read_file env)) + 2) env.array_ok
          env.line_allocs).map List.length ∈ [none, some 0] →
        main env = ⟨1, none⟩) ∧
      ((∀ c ∈ cstr (remove_special_chars (read_file env)), isspace c = true) →
        main env = ⟨1, none⟩) := by
  have key : ∀ (text : List Nat) (m : Int) (al : List Bool), 1 ≤ m →
      ((∃ lines, parse_lines text m true al = some lines ∧ lines.length = 0) ↔
        (∀ c ∈ cstr text, isspace c = true)) := by
    intro text m al hm
    obtain ⟨lines, h1, h2⟩ := parse_lines_strings text m al
    have hlen : lines.length = ((split_lines (cstr text)).take m.toNat).length := by
      rw [← h2]; simp
    rw [← split_lines_eq_nil_iff _ _ (le_refl _)]
    constructor
    · rintro ⟨l2, hl2, h0⟩
      rw [h1] at hl2
      have : lines = l2 := by simpa using hl2
      subst this
      rw [hlen, List.length_take] at h0
      have hm2 : 1 ≤ m.toNat := by omega
      exact List.length_eq_zero.mp (by omega)
    · intro hnil
      refine ⟨lines, h1, ?_⟩
      rw [hlen, hnil]; simp
  have hfail : (parse_lines (remove_special_chars (read_file env))
      (count_newlines (remove_special_chars (read_file env)) + 2) env.array_ok
      env.line_allocs).map List.length ∈ [none, some 0] → main env = ⟨1, none⟩ := by
    intro h
    cases hp : parse_lines (remove_special_chars (read_file env))
      (count_newlines (remove_special_chars (read_file env)) + 2) env.array_ok
      env.line_allocs with
    | none =>
      unfold main
      simp only [hp]
      split_ifs <;> rfl
    | some lines =>
      rw [hp] at h
      have h0 : lines.length = 0 := by simpa using h
      unfold main
      simp only [hp, h0]
      split_ifs <;> rfl
  refine ⟨key content max_lines allocs hmax, hfail, ?_⟩
  intro hblank
  apply hfail
  cases ha : env.array_ok with
  | false => rw [parse_lines_none]; simp
  | true =>
    have hm : 1 ≤ count_newlines (remove_special_chars (read_file env)) + 2 := by
      have := count_newlines_nonneg (remove_special_chars (read_file env)); omega
    obtain ⟨lines, h1, h0⟩ := (key _ _ env.line_allocs hm).mpr hblank
    rw [h1]; simp [h0]

/-- C10, amended, applied to a file that holds only whitespace and forbidden bytes. -/
theorem parse_lines_count_zero_example :
    (∃ lines, parse_lines (ascii " \t\n ") 1 true [] = some lines ∧ lines.length = 0) ∧
      main (plain_env (ascii " *\n\"\t")) = ⟨1, none⟩ :=
  ⟨(parse_lines_count_zero (ascii " \t\n ") 1 [] (plain_env (ascii " *\n\"\t"))
      (by decide)).1.mpr (by decide),
    (parse_lines_count_zero (ascii " \t\n ") 1 [] (plain_env (ascii " *\n\"\t"))
      (by decide)).2.2 (by decide)⟩

/-! ## The line buffer of process_line -/

theorem mem_dropWhile_of_false {p : Nat → Bool} {x : Nat} {l : List Nat} (hx : x ∈ l)
    (hp : p x = false) : x ∈ l.dropWhile p := by
  induction l with
  | nil => simp at hx
  | cons y l ih =>
    by_cases hy : p y = true
    · rw [List.dropWhile_cons_of_pos hy]
      rcases List.mem_cons.mp hx with h | h
      · subst h; rw [hp] at hy; simp at hy
      · exact ih h
    · rw [List.dropWhile_cons_of_neg hy]; exact hx

theorem mem_drop_dot {x : Nat} {l : List Nat} (hx : x ∈ l) (h : x ≠ 46) : x ∈ drop_dot l := by
  unfold drop_dot
  split
  · rcases List.mem_cons.mp hx with h1 | h1
    · exact absurd h1 h
    · exact h1
  · exact hx

/-- A `:` of the line is still there when the old numbering has been skipped. -/
theorem colon_mem_after_numbering (s : List Nat) :
    58 ∈ (drop_dot ((s.dropWhile isspace).dropWhile isdigit)).dropWhile isspace ↔ 58 ∈ s := by
  constructor
  · intro h
    have h1 := (List.dropWhile_suffix isspace).subset h
    have h2 := (drop_dot_suffix _).subset h1
    have h3 := (List.dropWhile_suffix isdigit).subset h2
    exact (List.dropWhile_suffix isspace).subset h3
  · intro h
    exact mem_dropWhile_of_false (mem_drop_dot (mem_dropWhile_of_false
      (mem_dropWhile_of_false h (by decide)) (by decide)) (by decide)) (by decide)

/-- The buffer `line` after lines 97-124: it is the old one exactly when the line holds
no `:`, and it always has the old length. -/
theorem strip_line_buffer (line : List Nat) :
    ((strip_line line).1 = line ↔ 58 ∉ cstr line) ∧
      (strip_line line).1.length = line.length := by
  have key : ∀ r, strip_line line = r →
      ((r.1 = line ↔ 58 ∉ cstr line) ∧ r.1.length = line.length) := by
    intro r hr
    unfold strip_line at hr
    lift_lets at hr
    extract_lets p0 p1 p2 p3 line2 p4 at hr
    subst hr
    have h0 : cstr_at line p0 = (cstr line).dropWhile isspace := cstr_at_skip_while isspace line 0
    have h1 : cstr_at line p1 = ((cstr line).dropWhile isspace).dropWhile isdigit := by
      rw [← h0]; exact cstr_at_skip_while isdigit line p0
    have h2 := dot_step line p1 _ h1
    have h3 : cstr_at line p3 = (cstr_at line p2).dropWhile isspace :=
      cstr_at_skip_while isspace line p2
    have hs3 : cstr_at line p3
        = (drop_dot (((cstr line).dropWhile isspace).dropWhile isdigit)).dropWhile isspace := by
      rw [h3]; exact congrArg _ h2
    have hmem : 58 ∈ cstr_at line p3 ↔ 58 ∈ cstr line := by
      rw [hs3]; exact colon_mem_after_numbering _
    have e : line2 = (match strchr line p3 58 with
        | some colon_position =>
          memmove line p3 (colon_position + 1) (strlen line (colon_position + 1) + 1)
        | none => line) := rfl
    show (line2 = line ↔ 58 ∉ cstr line) ∧ line2.length = line.length
    rw [strchr_eq (by decide : (58 : Nat) ≠ 0)] at e
    by_cases hm : 58 ∈ cstr_at line p3
    · simp only [hm, if_true] at e
      rw [e]
      obtain ⟨hd, hle⟩ := drop_takeWhile_succ hm
      generalize hk : ((cstr_at line p3).takeWhile (fun c => c != 58)).length = k at hd hle
      have hc : cstr_at line (p3 + k + 1)
          = ((cstr_at line p3).dropWhile (fun c => c != 58)).drop 1 := by
        rw [Nat.add_assoc, cstr_at_add hle, hd]
      have hl : (((cstr_at line p3).dropWhile (fun c => c != 58)).drop 1).length + (k + 1)
          = (cstr_at line p3).length := by
        rw [← hd]; simp; omega
      have hnew : cstr_at (memmove line p3 (p3 + k + 1) (strlen line (p3 + k + 1) + 1)) p3
          = ((cstr_at line p3).dropWhile (fun c => c != 58)).drop 1 := by
        unfold memmove
        rw [read_bytes_string, hc]
        apply cstr_at_write_string
        · intro c hc2
          rw [← hc] at hc2
          exact cstr_at_ne_zero _ _ c hc2
        · have hb := cstr_at_length_le line p3
          have hpos : 0 < (cstr_at line p3).length := by omega
          omega
      refine ⟨⟨fun heq => ?_, fun hno => absurd (hmem.mp hm) hno⟩, ?_⟩
      · exfalso
        rw [heq] at hnew
        have := congrArg List.length hnew
        omega
      · unfold memmove; exact write_bytes_length _ _ _
    · simp only [hm, if_false] at e
      rw [e]
      exact ⟨⟨fun _ => fun h => hm (hmem.mpr h), fun _ => rfl⟩, rfl⟩
  exact key _ rfl

theorem process_line_line (line : List Nat) (n : Int) (m : Nat) (ok : Bool) :
    (process_line line n m ok).line = (strip_line line).1 := by
  unfold process_line
  cases ok <;> rfl

/-- C11 as stated fails: `process_line` on the buffer `a:b` leaves the buffer `b`, the
terminator and the stale bytes `b` and terminator, not the bytes it was given. -/
theorem process_line_mutates_line :
    (process_line (ascii "a:b" ++ [0]) 1 0 true).line = ascii "b" ++ [0] ++ ascii "b" ++ [0] ∧
      (process_line (ascii "a:b" ++ [0]) 1 0 true).line ≠ ascii "a:b" ++ [0] := by
  refine ⟨by decide, by decide⟩

/-- C11, amended: the result of `process_line` does not depend on `max_line_length`, and
the string it returns is determined by the string of the line and the sequence number;
the line buffer keeps its length, and its bytes are left as they were exactly when the
line holds no `:` (otherwise the text behind the first `:` is moved forward in place). -/
theorem process_line_frame (line : List Nat) (n : Int) (m1 m2 : Nat) (ok : Bool) :
    process_line line n m1 ok = process_line line n m2 ok ∧
      (process_line line n m1 true).formatted_line
        = some (format_line n (rewrite_body (cstr line)) ++ [0]) ∧
      ((process_line line n m1 ok).line = line ↔ 58 ∉ cstr line) ∧
      (process_line line n m1 ok).line.length = line.length := by
  refine ⟨rfl, process_line_result line n m1, ?_, ?_⟩
  · rw [process_line_line]; exact (strip_line_buffer line).1
  · rw [process_line_line]; exact (strip_line_buffer line).2

/-! ## One step of the assembler -/

/-- The `memcpy` of a formatted line copies its string. -/
theorem memcpy_string (buf : List Nat) (o : Nat) (fl : List Nat) :
    memcpy buf o fl 0 (strlen fl 0) = write_bytes buf o (cstr fl) := by
  unfold memcpy
  rw [read_bytes_take _ _ _ (by rw [strlen_eq]), strlen_eq, List.take_length]
  rfl

/-- Storing a string and then a terminator, all inside the buffer. -/
theorem write_then_terminate (buf : List Nat) (o : Nat) (s : List Nat)
    (h : o + s.length < buf.length) :
    ((write_bytes buf o s).set (o + s.length) 0).length = buf.length ∧
      ((write_bytes buf o s).set (o + s.length) 0).take o = buf.take o ∧
      (((write_bytes buf o s).set (o + s.length) 0).drop o).take s.length = s ∧
      peek ((write_bytes buf o s).set (o + s.length) 0) (o + s.length) = 0 := by
  have ho : (buf.take o).length = o := by simp; omega
  have hw := write_bytes_append (buf.take o) (buf.drop o) s
  have hfit : s.length ≤ (buf.drop o).length := by simp; omega
  rw [List.take_append_drop, ho, List.take_of_length_le hfit, List.drop_drop] at hw
  obtain ⟨y, r, hyr⟩ : ∃ y r, buf.drop (o + s.length) = y :: r := by
    cases hd : buf.drop (o + s.length) with
    | nil =>
      have := congrArg List.length hd
      simp at this; omega
    | cons y r => exact ⟨y, r, rfl⟩
  have hlen : (buf.take o ++ s).length = o + s.length := by simp; omega
  have hset : (write_bytes buf o s).set (o + s.length) 0 = (buf.take o ++ s) ++ 0 :: r := by
    rw [hw, hyr, ← hlen, set_append_length]
  have hr : r.length + (o + s.length + 1) = buf.length := by
    have := congrArg List.length hyr
    simp at this; omega
  rw [hset]
  refine ⟨by simp; omega, ?_, ?_, ?_⟩
  · rw [List.append_assoc, List.take_append_of_le_length (by omega), List.take_take]
    simp
  · rw [List.append_assoc]
    have := List.drop_left (buf.take o) (s ++ 0 :: r)
    rw [ho] at this
    rw [this, List.take_left]
  · rw [← hlen, peek_append_length]; rfl

/-- Lines 228-230 and 237-239 on a block of `size` bytes with room for the line. -/
theorem appended_of_room (st : Assembler) (fl buf : List Nat) (size : Nat)
    (hlen : buf.length = size)
    (hpre : buf.take st.current_output_position
      = st.formatted_result.take st.current_output_position)
    (hroom : st.current_output_position + strlen fl 0 < size) :
    Appended st fl
      ⟨(memcpy buf st.current_output_position fl 0 (strlen fl 0)).set
          (st.current_output_position + strlen fl 0) 0,
        st.current_output_position + strlen fl 0, size⟩ := by
  have hl : strlen fl 0 = (cstr fl).length := strlen_eq fl 0
  obtain ⟨h1, h2, h3, h4⟩ := write_then_terminate buf st.current_output_position (cstr fl)
    (by rw [← hl]; omega)
  rw [memcpy_string]
  rw [← hl] at h1 h2 h3 h4
  exact ⟨rfl, by rw [h1, hlen], hroom, by rw [h2, hpre], h3, h4⟩

theorem realloc_grow (buf : List Nat) (n junk : Nat) (h : buf.length ≤ n) :
    (realloc buf n junk).length = n ∧ ∀ o, o ≤ buf.length →
      (realloc buf n junk).take o = buf.take o := by
  unfold realloc
  rw [List.take_of_length_le h]
  refine ⟨by simp; omega, fun o ho => List.take_append_of_le_length ho⟩

/-- The two successful branches of lines 224-241. -/
theorem append_line_cases (junk : Nat) (st : Assembler) (fl : List Nat) (allocs : List Bool)
    (hsize : st.formatted_result.length = st.result_buffer_size)
    (hpos : st.current_output_position ≤ st.result_buffer_size) :
    (st.current_output_position + strlen fl 0 < st.result_buffer_size →
        Appended st fl (append_line junk st fl allocs).1 ∧
        (append_line junk st fl allocs).1.result_buffer_size = st.result_buffer_size ∧
        (append_line junk st fl allocs).2 = allocs) ∧
      (st.result_buffer_size ≤ st.current_output_position + strlen fl 0 →
        (next_alloc allocs).1 = true →
        Appended st fl (append_line junk st fl allocs).1 ∧
        (append_line junk st fl allocs).1.result_buffer_size
          = st.current_output_position + strlen fl 0 + 1024 ∧
        (append_line junk st fl allocs).2 = (next_alloc allocs).2) := by
  constructor
  · intro hfit
    unfold append_line
    rw [if_pos hfit]
    exact ⟨appended_of_room st fl _ _ hsize rfl hfit, rfl, rfl⟩
  · intro hfull hok
    have hnot : ¬ st.current_output_position + strlen fl 0 < st.result_buffer_size := by omega
    unfold append_line
    rw [if_neg hnot, if_pos hok]
    obtain ⟨h1, h2⟩ := realloc_grow st.formatted_result
      (st.current_output_position + strlen fl 0 + 1024) junk (by omega)
    exact ⟨appended_of_room st fl _ _ h1 (h2 _ (by omega)) (by omega), rfl, rfl⟩

/-- A failed `realloc` (line 234): buffer and offset stay, the recorded capacity does not. -/
theorem append_line_failed (junk : Nat) (st : Assembler) (fl : List Nat) (allocs : List Bool)
    (hfull : st.result_buffer_size ≤ st.current_output_position + strlen fl 0)
    (hfail : (next_alloc allocs).1 = false) :
    append_line junk st fl allocs
      = (⟨st.formatted_result, st.current_output_position,
          st.current_output_position + strlen fl 0 + 1024⟩, (next_alloc allocs).2) := by
  have hnot : ¬ st.current_output_position + strlen fl 0 < st.result_buffer_size := by omega
  unfold append_line
  rw [if_neg hnot, if_neg (by rw [hfail]; simp)]

/-- An appended line extends the text the buffer holds. -/
theorem holds_of_appended (st st2 : Assembler) (fl acc : List Nat) (h : Holds st acc)
    (ha : Appended st fl st2) : Holds st2 (acc ++ cstr fl) := by
  obtain ⟨hlen, hpos, hlt, htake, hpk⟩ := h
  obtain ⟨a1, a2, a3, a4, a5, a6⟩ := ha
  have hl : strlen fl 0 = (cstr fl).length := strlen_eq fl 0
  rw [hpos] at a1 a4 a5
  refine ⟨a2, by rw [a1, hl]; simp, by rw [← a2]; rw [← a2] at a3; simp; omega, ?_, ?_⟩
  · rw [List.length_append, List.take_add, a4, htake, ← hl, a5]
  · rw [List.length_append, ← hl, ← a1]; exact a6

/-- C12, at the failing input: the buffer of 18 bytes holds `1. a\n\n2. b\n\n` at offset 12
and the line `3. c\n\n` needs growth; when `realloc` fails the buffer and the offset stay,
but the recorded capacity becomes 1042 although the block still has 18 bytes, and the
next line `4. d\n\n` is then copied without growth with its terminator at index 18,
outside the block. -/
theorem append_line_failed_realloc_capacity :
    append_line 170 ⟨ascii "1. a\n\n2. b\n\n" ++ [0] ++ List.replicate 5 170, 12, 18⟩
        (ascii "3. c\n\n" ++ [0]) [false]
      = (⟨ascii "1. a\n\n2. b\n\n" ++ [0] ++ List.replicate 5 170, 12, 1042⟩, []) ∧
      (ascii "1. a\n\n2. b\n\n" ++ [0] ++ List.replicate 5 170).length = 18 ∧
      (append_line 170 ⟨ascii "1. a\n\n2. b\n\n" ++ [0] ++ List.replicate 5 170, 12, 1042⟩
        (ascii "4. d\n\n" ++ [0]) []).1
      = ⟨ascii "1. a\n\n2. b\n\n4. d\n\n", 18, 1042⟩ ∧
      (ascii "1. a\n\n2. b\n\n4. d\n\n").length = 18 := by
  refine ⟨by decide, by decide, by decide, by decide⟩

/-- C14, at the failing input: on the file `a\nb\nc\nd\n` the output block has 18 bytes;
when the `realloc` for the third line fails, the `for` loop ends with the recorded
capacity 1042, a block of 18 bytes and the write offset 18, so the capacity recorded is
not the size of the block and the offset is not inside it. -/
theorem assemble_loop_capacity_after_failure :
    parse_lines (remove_special_chars (read_file (plain_env (ascii "a\nb\nc\nd\n"))))
        (count_newlines (remove_special_chars (read_file (plain_env (ascii "a\nb\nc\nd\n")))) + 2)
        true []
      = some [ascii "a" ++ [0], ascii "b" ++ [0], ascii "c" ++ [0], ascii "d" ++ [0]] ∧
      (initial_assembler (plain_env (ascii "a\nb\nc\nd\n"))).result_buffer_size = 18 ∧
      (initial_assembler (plain_env (ascii "a\nb\nc\nd\n"))).formatted_result.length = 18 ∧
      assemble_loop 170 [ascii "a" ++ [0], ascii "b" ++ [0], ascii "c" ++ [0], ascii "d" ++ [0]]
          1 (initial_assembler (plain_env (ascii "a\nb\nc\nd\n"))) [true, true, true, false]
        = ⟨ascii "1. a\n\n2. b\n\n4. d\n\n", 18, 1042⟩ ∧
      (ascii "1. a\n\n2. b\n\n4. d\n\n").length = 18 := by
  refine ⟨by decide, by decide, by decide, by decide, by decide⟩

/-- C15: for every assembler state whose recorded capacity `c` is the size of the block
and whose offset `o` lies in it, and every formatted line of length `l`: if `o + l < c`
the line is copied at offset `o`, the capacity stays and no `realloc` outcome is used;
otherwise, when `realloc` succeeds, the capacity becomes `o + l + 1024`; in both cases the
first `o` bytes are unchanged, the line and a terminator follow them inside the block and
the new offset is `o + l`.  Hence, from any state that holds the empty text, whatever its
capacity, the loop leaves the concatenation of the formatted lines. -/
theorem append_line_step (junk : Nat) (st : Assembler) (fl : List Nat) (allocs : List Bool)
    (hsize : st.formatted_result.length = st.result_buffer_size)
    (hpos : st.current_output_position ≤ st.result_buffer_size) :
    (st.current_output_position + strlen fl 0 < st.result_buffer_size →
        Appended st fl (append_line junk st fl allocs).1 ∧
        (append_line junk st fl allocs).1.result_buffer_size = st.result_buffer_size ∧
        (append_line junk st fl allocs).2 = allocs) ∧
      (st.result_buffer_size ≤ st.current_output_position + strlen fl 0 →
        (next_alloc allocs).1 = true →
        Appended st fl (append_line junk st fl allocs).1 ∧
        (append_line junk st fl allocs).1.result_buffer_size
          = st.current_output_position + strlen fl 0 + 1024 ∧
        (append_line junk st fl allocs).2 = (next_alloc allocs).2) ∧
      (∀ (lines : List (List Nat)) (n : Int) (st0 : Assembler) (la : List Bool),
        Holds st0 [] → all_succeed la →
        cstr (assemble_loop junk lines n st0 la).formatted_result = concat_processed n lines) := by
  obtain ⟨h1, h2⟩ := append_line_cases junk st fl allocs hsize hpos
  refine ⟨h1, h2, ?_⟩
  intro lines n st0 la h0 hla
  have h := assemble_loop_holds junk lines n st0 [] la h0 hla
  rw [List.nil_append] at h
  exact cstr_of_holds _ _ h (concat_processed_ne_zero lines n)

/-- C15 applied to a block of four bytes and the line `ab`. -/
theorem append_line_step_example :
    Appended ⟨[0, 7, 7, 7], 0, 4⟩ (ascii "ab" ++ [0])
        (append_line 170 ⟨[0, 7, 7, 7], 0, 4⟩ (ascii "ab" ++ [0]) []).1 ∧
      (append_line 170 ⟨[0, 7, 7, 7], 0, 4⟩ (ascii "ab" ++ [0]) []).1.result_buffer_size = 4 :=
  ⟨((append_line_step 170 ⟨[0, 7, 7, 7], 0, 4⟩ (ascii "ab" ++ [0]) [] rfl
      (by decide)).1 (by decide)).1,
    ((append_line_step 170 ⟨[0, 7, 7, 7], 0, 4⟩ (ascii "ab" ++ [0]) [] rfl
      (by decide)).1 (by decide)).2.1⟩

/-! ## The iterations of parse_lines -/

/-- The loop of `parse_lines` runs `parse_lines_step` until it gives `none`. -/
theorem parse_lines_loop_unfold (fuel : Nat) (content : List Nat) (max_lines : Int)
    (s : ScanState) :
    parse_lines_loop (fuel + 1) content max_lines s.pos s.lines s.allocs
      = match parse_lines_step content max_lines s with
        | none => s.lines
        | some s2 => parse_lines_loop fuel content max_lines s2.pos s2.lines s2.allocs := by
  rw [parse_lines_loop]
  unfold parse_lines_step
  by_cases hc : peek content s.pos ≠ 0 ∧ (s.lines.length : Int) < max_lines
  · rw [if_pos hc, if_pos hc]
    by_cases hl : find_line_end content s.pos - s.pos > 0
    · simp only []
      rw [if_pos hl, if_pos hl]
      by_cases ha : (next_alloc s.allocs).1 = false
      · rw [if_pos ha, if_pos ha]
      · rw [if_neg ha, if_neg ha]
        cases trim_line ((memcpy (List.replicate (find_line_end content s.pos - s.pos + 1) 0) 0
          content s.pos (find_line_end content s.pos - s.pos)).set
          (find_line_end content s.pos - s.pos) 0) <;> rfl
    · simp only []
      rw [if_neg hl, if_neg hl]
  · rw [if_neg hc, if_neg hc]

/-- Lines 41-46 and 86: where the next iteration starts. -/
theorem next_position_bounds (content : List Nat) (pos : Nat) (hpk : peek content pos ≠ 0) :
    pos ≤ find_line_end content pos ∧
      find_line_end content pos
        ≤ (if peek content (find_line_end content pos) = 10 then find_line_end content pos + 1
            else find_line_end content pos) ∧
      (if peek content (find_line_end content pos) = 10 then find_line_end content pos + 1
          else find_line_end content pos) ≤ pos + (cstr_at content pos).length ∧
      (find_line_end content pos - pos = 0 →
        (if peek content (find_line_end content pos) = 10 then find_line_end content pos + 1
          else find_line_end content pos) = pos + 1) := by
  have hle := line_end_eq content pos
  have hk : ((cstr_at content pos).takeWhile (fun c => c != 10)).length
      ≤ (cstr_at content pos).length := (List.takeWhile_sublist _).length_le
  refine ⟨by omega, by split <;> omega, ?_, ?_⟩
  · split
    · rename_i h10
      have hlt : ((cstr_at content pos).takeWhile (fun c => c != 10)).length
          < (cstr_at content pos).length := by
        by_contra hn
        have he : ((cstr_at content pos).takeWhile (fun c => c != 10)).length
            = (cstr_at content pos).length := by omega
        have hnil : cstr_at content (find_line_end content pos) = [] := by
          rw [hle, cstr_at_add hk, he]; simp
        rw [peek_eq_head_cstr_at, hnil] at h10
        exact absurd h10 (by decide)
      omega
    · omega
  · intro h0
    have hk0 : ((cstr_at content pos).takeWhile (fun c => c != 10)).length = 0 := by omega
    have he : find_line_end content pos = pos := by omega
    rw [he]
    have hp10 : peek content pos = 10 := by
      rw [peek_eq_head_cstr_at] at hpk ⊢
      cases hc : cstr_at content pos with
      | nil => rw [hc] at hpk; exact absurd rfl hpk
      | cons c t =>
        rw [hc] at hk0
        by_cases h10 : c = 10
        · rw [h10]; rfl
        · simp [h10] at hk0
    rw [if_pos hp10]

/-- An iteration in which no `malloc` fails moves `current_position` forward, inside the
text. -/
theorem parse_lines_step_advances (content : List Nat) (max_lines : Int) (s s2 : ScanState)
    (ha : all_succeed s.allocs) (h : parse_lines_step content max_lines s = some s2) :
    s.pos + 1 ≤ s2.pos ∧ s2.pos ≤ s.pos + (cstr_at content s.pos).length ∧
      all_succeed s2.allocs := by
  unfold parse_lines_step at h
  by_cases hc : peek content s.pos ≠ 0 ∧ (s.lines.length : Int) < max_lines
  · rw [if_pos hc] at h
    obtain ⟨b1, b2, b3, b4⟩ := next_position_bounds content s.pos hc.1
    obtain ⟨a1, a2⟩ := next_alloc_of_all_succeed ha
    simp only [] at h
    by_cases hl : find_line_end content s.pos - s.pos > 0
    · rw [if_pos hl, if_neg (by rw [a1]; simp)] at h
      cases ht : trim_line ((memcpy (List.replicate (find_line_end content s.pos - s.pos + 1) 0)
          0 content s.pos (find_line_end content s.pos - s.pos)).set
          (find_line_end content s.pos - s.pos) 0) with
      | none =>
        rw [ht] at h
        simp only [Option.some.injEq] at h
        subst h
        exact ⟨by simp only []; omega, b3, a2⟩
      | some stored =>
        rw [ht] at h
        simp only [Option.some.injEq] at h
        subst h
        exact ⟨by simp only []; omega, b3, a2⟩
    · rw [if_neg hl] at h
      simp only [Option.some.injEq] at h
      subst h
      exact ⟨by simp only []; rw [b4 (by omega)], b3, ha⟩
  · rw [if_neg hc] at h
    exact absurd h (by simp)

theorem cstr_at_length_after (content : List Nat) (p q : Nat) (h1 : p ≤ q)
    (h2 : q ≤ p + (cstr_at content p).length) :
    (cstr_at content q).length = (cstr_at content p).length - (q - p) := by
  have : q = p + (q - p) := by omega
  rw [this, cstr_at_add (by omega)]
  simp

/-- The loop of `parse_lines` leaves after at most as many iterations as bytes are left of
the text, when no `malloc` fails. -/
theorem parse_lines_iterations_bound (content : List Nat) (max_lines : Int) (n : Nat) :
    ∀ s : ScanState, (cstr_at content s.pos).length ≤ n → all_succeed s.allocs →
      ∃ k, k ≤ (cstr_at content s.pos).length ∧
        ∀ fuel, k < fuel → parse_lines_iterations fuel content max_lines s = some k := by
  induction n with
  | zero =>
    intro s hs ha
    refine ⟨0, by omega, ?_⟩
    intro fuel hf
    obtain ⟨f, rfl⟩ : ∃ f, fuel = f + 1 := ⟨fuel - 1, by omega⟩
    rw [parse_lines_iterations]
    cases hstep : parse_lines_step content max_lines s with
    | none => rfl
    | some s2 =>
      have := parse_lines_step_advances content max_lines s s2 ha hstep
      omega
  | succ n ih =>
    intro s hs ha
    cases hstep : parse_lines_step content max_lines s with
    | none =>
      refine ⟨0, by omega, ?_⟩
      intro fuel hf
      obtain ⟨f, rfl⟩ : ∃ f, fuel = f + 1 := ⟨fuel - 1, by omega⟩
      rw [parse_lines_iterations, hstep]
    | some s2 =>
      obtain ⟨h1, h2, h3⟩ := parse_lines_step_advances content max_lines s s2 ha hstep
      have hlen := cstr_at_length_after content s.pos s2.pos (by omega) h2
      obtain ⟨k, hk, hrun⟩ := ih s2 (by omega) h3
      refine ⟨k + 1, by omega, ?_⟩
      intro fuel hf
      obtain ⟨f, rfl⟩ : ∃ f, fuel = f + 1 := ⟨fuel - 1, by omega⟩
      rw [parse_lines_iterations, hstep]
      simp only []
      rw [hrun f (by omega)]
      rfl

/-- A failed `malloc` leaves the loop where it was. -/
theorem parse_lines_step_failed (content : List Nat) (max_lines : Int) (pos : Nat)
    (lines : List (List Nat)) (allocs : List Bool)
    (hc : peek content pos ≠ 0 ∧ (lines.length : Int) < max_lines)
    (hl : find_line_end content pos - pos > 0) :
    parse_lines_step content max_lines ⟨pos, lines, false :: allocs⟩
      = some ⟨pos, lines, allocs⟩ := by
  unfold parse_lines_step
  rw [if_pos hc]
  simp only []
  rw [if_pos hl]
  have hf : (next_alloc (false :: allocs)).1 = false := rfl
  rw [if_pos hf]
  rfl

/-- As long as `malloc` keeps failing, the loop stays at the same segment. -/
theorem parse_lines_iterations_failing (content : List Nat) (max_lines : Int) (pos : Nat)
    (lines : List (List Nat))
    (hc : peek content pos ≠ 0 ∧ (lines.length : Int) < max_lines)
    (hl : find_line_end content pos - pos > 0) :
    ∀ k : Nat, parse_lines_iterations k content max_lines ⟨pos, lines, List.replicate k false⟩
      = none := by
  intro k
  induction k with
  | zero => rfl
  | succ k ih =>
    rw [parse_lines_iterations, List.replicate_succ,
      parse_lines_step_failed content max_lines pos lines _ hc hl]
    simp only []
    rw [ih]
    rfl

/-- C13, at the failing input: on the text `x\ny` with the first `malloc` of the loop
failing, the iteration ends with `current_position` still 0 (the `continue` of line 52
skips line 86), the segment `x` is copied on the next iteration, and `parse_lines` returns
both lines instead of skipping `x`; as long as `malloc` keeps failing, the loop makes no
progress, whatever the number of iterations. -/
theorem parse_lines_retries_failed_line :
    parse_lines_step (ascii "x\ny") 5 ⟨0, [], [false]⟩ = some ⟨0, [], []⟩ ∧
      (parse_lines (ascii "x\ny") 5 true [false]).map (fun lines => lines.map cstr)
        = some [ascii "x", ascii "y"] ∧
      (parse_lines (ascii "x\ny") 5 true [false]).map (fun lines => lines.map cstr)
        ≠ some [ascii "y"] ∧
      (∀ k : Nat,
        parse_lines_iterations k (ascii "x\ny") 5 ⟨0, [], List.replicate k false⟩ = none) := by
  refine ⟨by decide, by decide, by decide, ?_⟩
  exact parse_lines_iterations_failing (ascii "x\ny") 5 0 [] (by decide) (by decide)

/-- C19: when no `malloc` fails, every iteration of the loop of `parse_lines` moves
`current_position` forward by at least one byte and not beyond the end of the text, and
the loop leaves after a number of iterations that is at most the length of the text. -/
theorem parse_lines_terminates (content : List Nat) (max_lines : Int) (allocs : List Bool)
    (h : all_succeed allocs) :
    (∀ (fuel : Nat) (s : ScanState),
        parse_lines_loop (fuel + 1) content max_lines s.pos s.lines s.allocs
          = match parse_lines_step content max_lines s with
            | none => s.lines
            | some s2 => parse_lines_loop fuel content max_lines s2.pos s2.lines s2.allocs) ∧
      (∀ s s2 : ScanState, all_succeed s.allocs →
        parse_lines_step content max_lines s = some s2 →
        s.pos + 1 ≤ s2.pos ∧ s2.pos ≤ s.pos + (cstr_at content s.pos).length) ∧
      (∃ k, k ≤ (cstr content).length ∧ k < content.length + allocs.length + 1 ∧
        ∀ fuel, k < fuel →
          parse_lines_iterations fuel content max_lines ⟨0, [], allocs⟩ = some k) := by
  refine ⟨fun fuel s => parse_lines_loop_unfold fuel content max_lines s, ?_, ?_⟩
  · intro s s2 ha hs
    obtain ⟨h1, h2, _⟩ := parse_lines_step_advances content max_lines s s2 ha hs
    exact ⟨h1, h2⟩
  · obtain ⟨k, hk, hrun⟩ :=
      parse_lines_iterations_bound content max_lines _ ⟨0, [], allocs⟩ (le_refl _) h
    have hb := cstr_at_length_le content 0
    have hk2 : k ≤ (cstr_at content 0).length := hk
    exact ⟨k, hk, by simp at hb; omega, hrun⟩

/-- C19 applied to the text `a\n\nb`: the loop leaves after three iterations. -/
theorem parse_lines_terminates_example :
    ∃ k, k ≤ (cstr (ascii "a\n\nb")).length ∧ k < (ascii "a\n\nb").length + 0 + 1 ∧
      ∀ fuel, k < fuel →
        parse_lines_iterations fuel (ascii "a\n\nb") 9 ⟨0, [], []⟩ = some k :=
  (parse_lines_terminates (ascii "a\n\nb") 9 [] (by intro b hb; simp at hb)).2.2

/-! ## The limit of parse_lines -/

theorem count_newlines_eq (buf : List Nat) : count_newlines buf = ((cstr buf).count 10 : Nat) := by
  induction buf with
  | nil => rfl
  | cons c rest ih =>
    unfold count_newlines
    by_cases hc : c = 0
    · subst hc; rfl
    · rw [if_neg hc, cstr_cons_of_ne hc, ih]
      by_cases h10 : c = 10
      · subst h10; simp; omega
      · rw [if_neg h10, List.count_cons_of_ne (Ne.symm h10)]; simp

theorem accepted_length_le (seg : List Nat) : (accepted seg).length ≤ 1 := by
  unfold accepted; split <;> simp

/-- A text has at most one line more than it has `\n`. -/
theorem split_lines_length_le (n : Nat) : ∀ text : List Nat, text.length ≤ n →
    (split_lines text).length ≤ text.count 10 + 1 := by
  induction n with
  | zero =>
    intro text hl
    have : text = [] := List.length_eq_zero.mp (by omega)
    subst this
    rw [split_lines_nil]; simp
  | succ n ih =>
    intro text hl
    by_cases hne : text = []
    · subst hne; rw [split_lines_nil]; simp
    · rw [split_lines_unfold, List.length_append]
      have ha := accepted_length_le (text.takeWhile (fun c => c != 10))
      by_cases h10 : 10 ∈ text
      · have hs := split_at_first h10
        have hrest := ih (text.drop ((text.takeWhile (fun c => c != 10)).length + 1)) (by
          have : 0 < text.length := List.length_pos.mpr hne
          simp; omega)
        have hcount : text.count 10
            = (text.drop ((text.takeWhile (fun c => c != 10)).length + 1)).count 10 + 1 := by
          have hz : (text.takeWhile (fun c => c != 10)).count 10 = 0 := by
            apply List.count_eq_zero.mpr
            intro hmem
            have := List.mem_takeWhile_imp hmem
            simp at this
          nth_rewrite 1 [hs]
          rw [List.count_append, hz, List.count_cons_self]
          omega
        omega
      · rw [takeWhile_length_of_not_mem h10] at ha ⊢
        rw [List.drop_of_length_le (by omega), split_lines_nil]
        simp; omega

/-- One iteration does not raise the number of lines stored plus the number of lines
still to come. -/
theorem parse_lines_step_budget (content : List Nat) (max_lines : Int) (s s2 : ScanState)
    (h : parse_lines_step content max_lines s = some s2) :
    s2.lines.length + (split_lines (cstr_at content s2.pos)).length
      ≤ s.lines.length + (split_lines (cstr_at content s.pos)).length := by
  unfold parse_lines_step at h
  by_cases hc : peek content s.pos ≠ 0 ∧ (s.lines.length : Int) < max_lines
  · rw [if_pos hc] at h
    simp only [] at h
    rw [line_end_eq] at h
    generalize hk : ((cstr_at content s.pos).takeWhile (fun c => c != 10)).length = k at h
    have hnext := cstr_at_next content s.pos k hk.symm
    have hcopy := line_copy_eq content s.pos k hk.symm
    have hunf := split_lines_unfold (cstr_at content s.pos)
    rw [hk] at hunf
    have hlen := congrArg List.length hunf
    rw [List.length_append] at hlen
    have hacc := accepted_length_le ((cstr_at content s.pos).takeWhile (fun c => c != 10))
    simp only [Nat.add_sub_cancel_left] at h
    by_cases hl : k > 0
    · rw [if_pos hl] at h
      by_cases ha : (next_alloc s.allocs).1 = false
      · rw [if_pos ha] at h
        simp only [Option.some.injEq] at h
        subst h
        exact le_refl _
      · rw [if_neg ha, hcopy] at h
        have hz : ∀ c ∈ (cstr_at content s.pos).takeWhile (fun c => c != 10), c ≠ 0 :=
          fun c hc => cstr_at_ne_zero content s.pos c (List.takeWhile_subset _ hc)
        by_cases ht : trim ((cstr_at content s.pos).takeWhile (fun c => c != 10)) = []
        · rw [trim_line_blank _ [] hz ht] at h
          simp only [Option.some.injEq] at h
          subst h
          simp only []
          rw [hnext]; omega
        · obtain ⟨stored, hst, _⟩ := trim_line_some _ [] hz ht
          rw [hst] at h
          simp only [Option.some.injEq] at h
          subst h
          have h1 : (accepted ((cstr_at content s.pos).takeWhile (fun c => c != 10))).length
              = 1 := by
            unfold accepted; rw [if_neg ht]; rfl
          simp only [List.length_append, List.length_singleton]
          rw [hnext]; omega
    · rw [if_neg hl] at h
      simp only [Option.some.injEq] at h
      subst h
      simp only []
      rw [hnext]; omega
  · rw [if_neg hc] at h
    exact absurd h (by simp)

/-- The limit matters to an iteration only through the test `*line_count < max_lines`. -/
theorem parse_lines_step_limit (content : List Nat) (m1 m2 : Int) (s : ScanState)
    (h1 : (s.lines.length : Int) < m1) (h2 : (s.lines.length : Int) < m2) :
    parse_lines_step content m1 s = parse_lines_step content m2 s := by
  unfold parse_lines_step
  by_cases hp : peek content s.pos ≠ 0
  · have c1 : peek content s.pos ≠ 0 ∧ (s.lines.length : Int) < m1 := ⟨hp, h1⟩
    have c2 : peek content s.pos ≠ 0 ∧ (s.lines.length : Int) < m2 := ⟨hp, h2⟩
    rw [if_pos c1, if_pos c2]
  · have c1 : ¬ (peek content s.pos ≠ 0 ∧ (s.lines.length : Int) < m1) := fun h => hp h.1
    have c2 : ¬ (peek content s.pos ≠ 0 ∧ (s.lines.length : Int) < m2) := fun h => hp h.1
    rw [if_neg c1, if_neg c2]

/-- A limit above the number of lines stored and to come never stops the loop. -/
theorem parse_lines_loop_limit (content : List Nat) (m1 m2 : Int) (fuel : Nat) :
    ∀ s : ScanState,
      ((s.lines.length + (split_lines (cstr_at content s.pos)).length : Nat) : Int) < m1 →
      ((s.lines.length + (split_lines (cstr_at content s.pos)).length : Nat) : Int) < m2 →
      parse_lines_loop fuel content m1 s.pos s.lines s.allocs
        = parse_lines_loop fuel content m2 s.pos s.lines s.allocs := by
  induction fuel with
  | zero => intro s _ _; rfl
  | succ fuel ih =>
    intro s h1 h2
    rw [parse_lines_loop_unfold, parse_lines_loop_unfold,
      parse_lines_step_limit content m1 m2 s (by omega) (by omega)]
    cases hs : parse_lines_step content m2 s with
    | none => rfl
    | some s2 =>
      have hb := parse_lines_step_budget content m2 s s2 hs
      exact ih s2 (by omega) (by omega)

theorem split_lines_count_le (content : List Nat) :
    ((split_lines (cstr content)).length : Int) ≤ count_newlines content + 1 := by
  have := split_lines_length_le _ (cstr content) (le_refl _)
  rw [count_newlines_eq]
  omega

/-- C16: a text yields at most one line more than it has `\n`, so the limit
"number of `\n` plus 2" that `main` passes is never reached: `parse_lines` returns with it
the same array as with any larger limit, and the strings stored are all the lines of the
text. -/
theorem estimate_never_truncates (content : List Nat) (array_ok : Bool) (allocs : List Bool)
    (m : Int) (hm : count_newlines content + 2 ≤ m) :
    ((split_lines (cstr content)).length : Int) ≤ count_newlines content + 1 ∧
      parse_lines content m array_ok allocs
        = parse_lines content (count_newlines content + 2) array_ok allocs ∧
      (parse_lines content (count_newlines content + 2) true allocs).map
          (fun lines => lines.map cstr)
        = some (split_lines (cstr content)) := by
  have hle := split_lines_count_le content
  refine ⟨hle, ?_, ?_⟩
  · unfold parse_lines
    cases array_ok with
    | false => rfl
    | true =>
      simp only [Bool.true_eq_false, if_false]
      congr 1
      have hc : cstr_at content 0 = cstr content := rfl
      exact parse_lines_loop_limit content m (count_newlines content + 2) _ ⟨0, [], allocs⟩
        (by simp only [List.length_nil, Nat.zero_add, hc]; omega)
        (by simp only [List.length_nil, Nat.zero_add, hc]; omega)
  · obtain ⟨lines, h1, h2⟩ := parse_lines_strings content (count_newlines content + 2) allocs
    rw [h1]
    simp only [Option.map_some', Option.some.injEq]
    rw [h2]
    apply List.take_of_length_le
    omega

/-- C16 applied to the text `a\n\nb` and the limit 10. -/
theorem estimate_never_truncates_example :
    parse_lines (ascii "a\n\nb") 10 true [] = parse_lines (ascii "a\n\nb") 4 true [] :=
  (estimate_never_truncates (ascii "a\n\nb") true [] 10 (by decide)).2.1

/-! ## The whole run -/

theorem cstr_append_terminator (t r : List Nat) : cstr (t ++ 0 :: r) = cstr t := by
  induction t with
  | nil => rfl
  | cons c t ih =>
    by_cases hc : c = 0
    · subst hc; rfl
    · rw [List.cons_append, cstr_cons_of_ne hc, cstr_cons_of_ne hc, ih]

theorem cstr_read_file (env : Env) : cstr (read_file env) = cstr env.data :=
  cstr_append_terminator _ _

/-- The strings `main` gets from `parse_lines`: all the lines of the sanitized text. -/
theorem main_lines (env : Env) (lines : List (List Nat))
    (h : parse_lines (remove_special_chars (read_file env))
      (count_newlines (remove_special_chars (read_file env)) + 2) env.array_ok env.line_allocs
      = some lines) :
    lines.map cstr = split_lines ((cstr env.data).filter kept) := by
  cases ha : env.array_ok with
  | false => rw [ha, parse_lines_none] at h; exact absurd h (by simp)
  | true =>
    rw [ha] at h
    obtain ⟨lines2, h1, h2⟩ := parse_lines_strings (remove_special_chars (read_file env))
      (count_newlines (remove_special_chars (read_file env)) + 2) env.line_allocs
    rw [h] at h1
    have : lines = lines2 := by simpa using h1
    subst this
    have hle := split_lines_count_le (remove_special_chars (read_file env))
    rw [h2, List.take_of_length_le (by omega), cstr_remove_special_chars, cstr_read_file]

/-- What a run of `main` that returns 0 has gone through. -/
theorem main_success (env : Env) (out : List Nat) (h : main env = ⟨0, some out⟩) :
    env.readable = true ∧ 0 < env.file_size ∧ env.content_ok = true ∧
      env.result_ok = true ∧ env.writable = true ∧
      ∃ lines, parse_lines (remove_special_chars (read_file env))
          (count_newlines (remove_special_chars (read_file env)) + 2) env.array_ok
          env.line_allocs = some lines ∧ lines ≠ [] ∧ out = cstr (assemble env lines) := by
  unfold main at h
  by_cases h1 : env.readable = false
  · rw [if_pos h1] at h; exact absurd h (by simp)
  rw [if_neg h1] at h
  by_cases h2 : env.file_size ≤ 0
  · rw [if_pos h2] at h; exact absurd h (by simp)
  rw [if_neg h2] at h
  by_cases h3 : env.content_ok = false
  · rw [if_pos h3] at h; exact absurd h (by simp)
  rw [if_neg h3] at h
  simp only [] at h
  cases hp : parse_lines (remove_special_chars (read_file env))
      (count_newlines (remove_special_chars (read_file env)) + 2) env.array_ok
      env.line_allocs with
  | none => rw [hp] at h; exact absurd h (by simp)
  | some lines =>
    rw [hp] at h
    simp only [] at h
    by_cases h4 : lines.length = 0
    · rw [if_pos h4] at h; exact absurd h (by simp)
    rw [if_neg h4] at h
    by_cases h5 : env.result_ok = false
    · rw [if_pos h5] at h; exact absurd h (by simp)
    rw [if_neg h5] at h
    by_cases h6 : env.writable = false
    · rw [if_pos h6] at h; exact absurd h (by simp)
    rw [if_neg h6] at h
    simp only [Outcome.mk.injEq, Option.some.injEq, true_and] at h
    refine ⟨by simpa using h1, by omega, by simpa using h3, by simpa using h5,
      by simpa using h6, lines, rfl, ?_, h.symm⟩
    intro hn; exact h4 (by rw [hn]; rfl)

/-- The text a successful run of `main` writes when no allocation of the `for` loop
fails. -/
theorem main_written (env : Env) (out : List Nat) (hloop : all_succeed env.loop_allocs)
    (h : main env = ⟨0, some out⟩) :
    split_lines ((cstr env.data).filter kept) ≠ [] ∧
      out = List.intercalate (ascii "\n\n")
        (entries_from 1 (split_lines ((cstr env.data).filter kept))) := by
  obtain ⟨_, hsize, _, _, _, lines, hp, hne, hout⟩ := main_success env out h
  have hl := main_lines env lines hp
  have htidy := lines_tidy_of_parse _ _ _ _ _ hp
  obtain ⟨h1, _, _⟩ := final_text env lines hsize hloop htidy hne
  rw [← hl]
  exact ⟨by simpa using hne, by rw [hout, h1]⟩

/-- A run on the bytes `t` in which every call succeeds writes `format_text t`, when the
text has a line. -/
theorem main_plain_env (t : List Nat) (h : split_lines ((cstr t).filter kept) ≠ []) :
    main (plain_env t) = ⟨0, some (format_text t)⟩ := by
  have ht : t ≠ [] := by
    intro h0; subst h0; exact h (by decide)
  have hsize : 0 < (plain_env t).file_size := by
    have : 0 < t.length := List.length_pos.mpr ht
    simp [plain_env]; omega
  obtain ⟨lines, hp, hs⟩ := parse_lines_strings (remove_special_chars (read_file (plain_env t)))
    (count_newlines (remove_special_chars (read_file (plain_env t))) + 2)
    (plain_env t).line_allocs
  have hp2 : parse_lines (remove_special_chars (read_file (plain_env t)))
      (count_newlines (remove_special_chars (read_file (plain_env t))) + 2)
      (plain_env t).array_ok (plain_env t).line_allocs = some lines := hp
  have hl := main_lines (plain_env t) lines hp2
  have hd : (plain_env t).data = t := rfl
  rw [hd] at hl
  have hne : lines ≠ [] := by
    intro h0; rw [h0] at hl; exact h hl.symm
  have htidy := lines_tidy_of_parse _ _ _ _ _ hp2
  have hloop : all_succeed (plain_env t).loop_allocs := by
    intro b hb; simp [plain_env] at hb
  obtain ⟨h1, _, _⟩ := final_text (plain_env t) lines hsize hloop htidy hne
  rw [main_eq (plain_env t) lines rfl hsize rfl rfl rfl hp2 hne, h1, hl]
  rfl

/-! ## The bytes of the output -/

theorem decimal_digits_ne_nil (fuel n : Nat) : decimal_digits (fuel + 1) n ≠ [] := by
  unfold decimal_digits
  split <;> simp

/-- The number printed for an `int` that is not negative is a non-empty run of digits. -/
theorem print_int_digits (n : Int) (h : 0 ≤ n) :
    print_int n ≠ [] ∧ ∀ c ∈ print_int n, isdigit c = true := by
  cases n with
  | ofNat k =>
    refine ⟨decimal_digits_ne_nil k k, ?_⟩
    intro c hc
    have := decimal_digits_range _ _ c hc
    simp [isdigit]; omega
  | negSucc k => exact absurd h (by simp [Int.negSucc_lt_zero])

theorem mem_intercalate {sep : List Nat} (es : List (List Nat)) :
    ∀ c ∈ List.intercalate sep es, c ∈ sep ∨ ∃ e ∈ es, c ∈ e := by
  induction es with
  | nil => intro c hc; simp [List.intercalate] at hc
  | cons e rest ih =>
    intro c hc
    cases rest with
    | nil =>
      right
      refine ⟨e, by simp, ?_⟩
      simpa [List.intercalate] using hc
    | cons e2 rest2 =>
      have hi : List.intercalate sep (e :: e2 :: rest2)
          = e ++ sep ++ List.intercalate sep (e2 :: rest2) := by
        simp [List.intercalate]
      rw [hi] at hc
      rcases List.mem_append.mp hc with h | h
      · rcases List.mem_append.mp h with h | h
        · exact Or.inr ⟨e, by simp, h⟩
        · exact Or.inl h
      · rcases ih c h with h | ⟨e3, he3, hc3⟩
        · exact Or.inl h
        · exact Or.inr ⟨e3, List.mem_cons_of_mem _ he3, hc3⟩

theorem mem_entries_from (lines : List (List Nat)) : ∀ (n : Int), 0 ≤ n →
    ∀ e ∈ entries_from n lines, ∃ k : Int, 0 ≤ k ∧ ∃ l ∈ lines, e = entry k l := by
  induction lines with
  | nil => intro n _ e he; simp [entries_from] at he
  | cons l rest ih =>
    intro n hn e he
    simp only [entries_from, List.mem_cons] at he
    rcases he with h | h
    · exact ⟨n, hn, l, by simp, h⟩
    · obtain ⟨k, hk, l2, hl2, he2⟩ := ih (n + 1) (by omega) e h
      exact ⟨k, hk, l2, List.mem_cons_of_mem _ hl2, he2⟩

/-- Every byte of a line of a text is a byte of the text. -/
theorem split_lines_subset (n : Nat) : ∀ text : List Nat, text.length ≤ n →
    ∀ l ∈ split_lines text, ∀ c ∈ l, c ∈ text := by
  induction n with
  | zero =>
    intro text hl l hmem
    have : text = [] := List.length_eq_zero.mp (by omega)
    subst this
    rw [split_lines_nil] at hmem; simp at hmem
  | succ n ih =>
    intro text hl l hmem c hc
    by_cases hne : text = []
    · subst hne; rw [split_lines_nil] at hmem; simp at hmem
    · rw [split_lines_unfold] at hmem
      rcases List.mem_append.mp hmem with h | h
      · unfold accepted at h
        split at h
        · simp at h
        · simp only [List.mem_singleton] at h
          subst h
          exact List.takeWhile_subset _ (trim_subset _ c hc)
      · have hlen : (text.drop ((text.takeWhile (fun c => c != 10)).length + 1)).length ≤ n := by
          have : 0 < text.length := List.length_pos.mpr hne
          simp; omega
        exact List.drop_subset _ _ (ih _ hlen l h c hc)

/-- The bytes of an entry: digits, `.`, a space, and bytes of the line. -/
theorem mem_entry (k : Int) (hk : 0 ≤ k) (l : List Nat) :
    ∀ c ∈ entry k l, isdigit c = true ∨ c = 46 ∨ c = 32 ∨ c ∈ l := by
  intro c hc
  unfold entry at hc
  rcases List.mem_append.mp hc with h | h
  · rcases List.mem_append.mp h with h | h
    · exact Or.inl ((print_int_digits k hk).2 c h)
    · have : c = 46 ∨ c = 32 := by simpa [ascii] using h
      rcases this with h | h
      · exact Or.inr (Or.inl h)
      · exact Or.inr (Or.inr (Or.inl h))
  · exact Or.inr (Or.inr (Or.inr ((rewrite_body_suffix l).subset h)))

/-- The bytes of the formatted text of `text`. -/
theorem mem_formatted (text : List Nat) :
    ∀ c ∈ List.intercalate (ascii "\n\n") (entries_from 1 (split_lines text)),
      c ∈ text ∨ isdigit c = true ∨ c = 46 ∨ c = 32 ∨ c = 10 := by
  intro c hc
  rcases mem_intercalate _ c hc with h | ⟨e, he, hce⟩
  · have : c = 10 := by simpa [ascii] using h
    exact Or.inr (Or.inr (Or.inr (Or.inr this)))
  · obtain ⟨k, hk, l, hl, rfl⟩ := mem_entries_from _ 1 (by decide) e he
    rcases mem_entry k hk l c hce with h | h | h | h
    · exact Or.inr (Or.inl h)
    · exact Or.inr (Or.inr (Or.inl h))
    · exact Or.inr (Or.inr (Or.inr (Or.inl h)))
    · exact Or.inl (split_lines_subset _ text (le_refl _) l hl c h)

theorem formatted_clean (s : List Nat) :
    ∀ c ∈ List.intercalate (ascii "\n\n") (entries_from 1 (split_lines (s.filter kept))),
      kept c = true := by
  intro c hc
  rcases mem_formatted _ c hc with h | h | h | h | h
  · exact (List.mem_filter.mp h).2
  · simp only [isdigit, Bool.and_eq_true, decide_eq_true_eq] at h
    simp only [kept, Bool.and_eq_true, bne_iff_ne, ne_eq]
    omega
  · subst h; decide
  · subst h; decide
  · subst h; decide

/-- C18: when no allocation of the `for` loop fails, the text a successful run of `main`
writes holds no `*` and no `"`: each of its bytes is a byte of the sanitized text, a digit,
`.`, a space or `\n`, every body being the end piece of a line of the sanitized text. -/
theorem main_output_clean (env : Env) (out : List Nat) (hloop : all_succeed env.loop_allocs)
    (h : main env = ⟨0, some out⟩) :
    42 ∉ out ∧ 34 ∉ out ∧
      (∀ c ∈ out, c ∈ (cstr env.data).filter (fun c => c != 42 && c != 34) ∨
        isdigit c = true ∨ c = 46 ∨ c = 32 ∨ c = 10) ∧
      (∀ l ∈ split_lines ((cstr env.data).filter (fun c => c != 42 && c != 34)),
        rewrite_body l <:+ l ∧
        ∀ c ∈ l, c ∈ (cstr env.data).filter (fun c => c != 42 && c != 34)) := by
  obtain ⟨_, hout⟩ := main_written env out hloop h
  have hk : ∀ c ∈ out, kept c = true := by
    rw [hout]; exact formatted_clean _
  refine ⟨fun h42 => ?_, fun h34 => ?_, ?_, ?_⟩
  · exact absurd (hk 42 h42) (by decide)
  · exact absurd (hk 34 h34) (by decide)
  · rw [hout]; exact mem_formatted _
  · intro l hl
    exact ⟨rewrite_body_suffix l, split_lines_subset _ _ (le_refl _) l hl⟩

/-- C18 applied to the file `*a"\n7. b*`. -/
theorem main_output_clean_example :
    42 ∉ ascii "1. a\n\n2. b" ∧ 34 ∉ ascii "1. a\n\n2. b" :=
  ⟨(main_output_clean (plain_env (ascii "*a\"\n7. b*")) (ascii "1. a\n\n2. b")
      (by intro b hb; simp [plain_env] at hb) (by decide)).1,
    (main_output_clean (plain_env (ascii "*a\"\n7. b*")) (ascii "1. a\n\n2. b")
      (by intro b hb; simp [plain_env] at hb) (by decide)).2.1⟩

/-! ## Formatting twice -/

/-- The body of a line has no leading whitespace. -/
theorem rewrite_body_dropWhile (line : List Nat) :
    (rewrite_body line).dropWhile isspace = rewrite_body line := by
  unfold rewrite_body
  simp only []
  exact List.dropWhile_idempotent _ _

theorem ends_tidy_rewrite_body (line : List Nat) (h : ends_tidy line) :
    ends_tidy (rewrite_body line) := by
  intro hne
  obtain ⟨t, ht⟩ := rewrite_body_suffix line
  have hl : line ≠ [] := by
    intro h0; apply hne; rw [h0]; rfl
  have key : ∀ (l : List Nat) (h1 : l ≠ []), t ++ rewrite_body line = l →
      l.getLast h1 = (rewrite_body line).getLast hne := by
    intro l h1 e
    subst e
    exact List.getLast_append_of_ne_nil hne
  rw [← key line hl ht]
  exact h hl

/-- Skipping the numbering `d.` in front of a text. -/
theorem rewrite_body_numbered (d r : List Nat) (hd : d ≠ [])
    (hdig : ∀ c ∈ d, isdigit c = true) :
    rewrite_body (d ++ 46 :: r)
      = (if 58 ∈ r.dropWhile isspace
          then ((r.dropWhile isspace).dropWhile (fun c => c != 58)).drop 1
          else r.dropWhile isspace).dropWhile isspace := by
  obtain ⟨c, ds, rfl⟩ := List.exists_cons_of_ne_nil hd
  have hc : isdigit c = true := hdig c (by simp)
  have hs : isspace c = false := by
    simp only [isdigit, isspace] at hc ⊢
    simp only [Bool.and_eq_true, decide_eq_true_eq] at hc
    simp only [Bool.or_eq_false_iff, beq_eq_false_iff_ne, ne_eq, Bool.and_eq_false_iff,
      decide_eq_false_iff_not]
    omega
  have h1 : (c :: ds ++ 46 :: r).dropWhile isspace = c :: ds ++ 46 :: r := by
    simp [List.dropWhile_cons, hs]
  have h2 : (c :: ds ++ 46 :: r).dropWhile isdigit = 46 :: r := by
    have := @List.dropWhile_append_of_pos Nat isdigit (c :: ds) (46 :: r) hdig
    rw [this]
    exact List.dropWhile_cons_of_neg (by decide)
  unfold rewrite_body
  simp only [h1, h2]
  rfl

theorem trim_of_tidy (s : List Nat) (hne : s ≠ []) (hh : isspace (s.head hne) = false)
    (hl : isspace (s.getLast hne) = false) : trim s = s := by
  unfold trim
  have h1 : s.dropWhile isspace = s := by
    obtain ⟨c, t, rfl⟩ := List.exists_cons_of_ne_nil hne
    exact List.dropWhile_cons_of_neg (by simpa using hh)
  rw [h1]
  apply List.rdropWhile_eq_self_iff.mpr
  intro h2
  simpa using hl

theorem isspace_of_isdigit {c : Nat} (hc : isdigit c = true) : isspace c = false := by
  simp only [isdigit, isspace] at hc ⊢
  simp only [Bool.and_eq_true, decide_eq_true_eq] at hc
  simp only [Bool.or_eq_false_iff, beq_eq_false_iff_ne, ne_eq, Bool.and_eq_false_iff,
    decide_eq_false_iff_not]
  omega

/-- Formatting an entry again gives the same body: the entry of a line without `:` and
without trailing whitespace, once trimmed, is a non-empty line whose body is the body of
the line. -/
theorem entry_fixed (n : Int) (hn : 0 ≤ n) (line : List Nat) (hcolon : 58 ∉ line)
    (htidy : ends_tidy line) :
    trim (entry n line) ≠ [] ∧ rewrite_body (trim (entry n line)) = rewrite_body line := by
  obtain ⟨hd, hdig⟩ := print_int_digits n hn
  have hb1 := rewrite_body_dropWhile line
  have hb2 : 58 ∉ rewrite_body line := fun h => hcolon ((rewrite_body_suffix line).subset h)
  have hb3 := ends_tidy_rewrite_body line htidy
  unfold entry
  generalize rewrite_body line = b at hb1 hb2 hb3
  generalize print_int n = d at hd hdig
  obtain ⟨c, ds, rfl⟩ := List.exists_cons_of_ne_nil hd
  have hc : isspace c = false := isspace_of_isdigit (hdig c (by simp))
  by_cases hb : b = []
  · subst hb
    have ht : trim (c :: ds ++ ascii ". " ++ []) = c :: ds ++ [46] := by
      unfold trim
      have h1 : (c :: ds ++ ascii ". " ++ []).dropWhile isspace = (c :: ds ++ [46]) ++ [32] := by
        simp [List.dropWhile_cons, hc, ascii]
      rw [h1, List.rdropWhile_concat_pos _ _ _ (by decide),
        List.rdropWhile_concat_neg _ _ _ (by decide)]
    rw [ht]
    refine ⟨by simp, ?_⟩
    have := rewrite_body_numbered (c :: ds) [] (by simp) hdig
    simpa using this
  · have hlast := hb3 hb
    have hne : c :: ds ++ ascii ". " ++ b ≠ [] := by simp
    have ht : trim (c :: ds ++ ascii ". " ++ b) = c :: ds ++ ascii ". " ++ b := by
      apply trim_of_tidy _ hne
      · simpa using hc
      · rw [List.getLast_append_of_ne_nil hb]; exact hlast
    rw [ht]
    refine ⟨hne, ?_⟩
    have h := rewrite_body_numbered (c :: ds) (32 :: b) (by simp) hdig
    have e : c :: ds ++ ascii ". " ++ b = (c :: ds) ++ 46 :: 32 :: b := by simp [ascii]
    rw [e, h]
    have h32 : (32 :: b).dropWhile isspace = b := by
      rw [List.dropWhile_cons_of_pos (by decide), hb1]
    rw [h32, if_neg hb2, hb1]

theorem filter_map_cons_congr (p : List Nat → Bool) (f : List Nat → List Nat) (a : List Nat)
    (xs ys : List (List Nat)) (h : (xs.map f).filter p = (ys.map f).filter p) :
    ((a :: xs).map f).filter p = ((a :: ys).map f).filter p := by
  simp only [List.map_cons, List.filter_cons, h]

/-- The lines of a text made of entries without `\n`, separated by blank lines. -/
theorem split_lines_intercalate (es : List (List Nat)) (h : ∀ e ∈ es, 10 ∉ e) :
    split_lines (List.intercalate (ascii "\n\n") es)
      = (es.map trim).filter (fun s => decide (s ≠ [])) := by
  induction es with
  | nil => decide
  | cons e rest ih =>
    have he : ∀ x ∈ e, ¬ ((x == 10) = true) := by
      intro x hx h10
      have : x = 10 := by simpa using h10
      exact h e (by simp) (this ▸ hx)
    cases rest with
    | nil =>
      have hi : List.intercalate (ascii "\n\n") [e] = e := by simp [List.intercalate]
      have hs : e.splitOn 10 = [e] := List.splitOnP_eq_single _ _ he
      rw [hi]
      unfold split_lines
      rw [hs]
    | cons e2 rest2 =>
      have hi : List.intercalate (ascii "\n\n") (e :: e2 :: rest2)
          = e ++ 10 :: ([] ++ 10 :: List.intercalate (ascii "\n\n") (e2 :: rest2)) := by
        simp [List.intercalate, ascii]
      have hs : (List.intercalate (ascii "\n\n") (e :: e2 :: rest2)).splitOn 10
          = e :: [] :: (List.intercalate (ascii "\n\n") (e2 :: rest2)).splitOn 10 := by
        rw [hi]
        unfold List.splitOn
        rw [List.splitOnP_first (fun c => c == 10) e he 10 (by simp),
          List.splitOnP_first (fun c => c == 10) [] (by simp) 10 (by simp)]
      have ih2 := ih (fun x hx => h x (List.mem_cons_of_mem _ hx))
      unfold split_lines at ih2 ⊢
      rw [hs]
      apply filter_map_cons_congr
      rw [List.map_cons, List.filter_cons_of_neg (by decide)]
      exact ih2

/-- Numbering the trimmed entries again gives the entries. -/
theorem entries_from_fixed (lines : List (List Nat)) : ∀ (n : Int), 0 ≤ n →
    (∀ l ∈ lines, 58 ∉ l ∧ ends_tidy l) →
    entries_from n ((entries_from n lines).map trim) = entries_from n lines := by
  induction lines with
  | nil => intro n _ _; rfl
  | cons l rest ih =>
    intro n hn hall
    obtain ⟨h1, h2⟩ := hall l (by simp)
    obtain ⟨_, hbody⟩ := entry_fixed n hn l h1 h2
    simp only [entries_from, List.map_cons]
    rw [ih (n + 1) (by omega) (fun x hx => hall x (List.mem_cons_of_mem _ hx))]
    congr 1
    unfold entry at hbody ⊢
    rw [hbody]

/-- The properties of the lines of a text that the second run relies on. -/
theorem split_lines_facts (text : List Nat) (l : List Nat) (hl : l ∈ split_lines text) :
    ends_tidy l ∧ 10 ∉ l ∧ ∀ c ∈ l, c ∈ text := by
  obtain ⟨seg, hseg, htrim, hne⟩ := mem_split_lines _ text (le_refl _) l hl
  refine ⟨?_, ?_, split_lines_subset _ text (le_refl _) l hl⟩
  · intro h2
    have := (trim_ends seg (by rw [htrim]; exact hne)).2
    simpa [htrim] using this
  · intro h10
    rw [← htrim] at h10
    exact hseg 10 (trim_subset seg 10 h10) rfl

/-- Formatting a formatted text without `:` gives it back. -/
theorem format_text_fixed (t : List Nat) (hcolon : 58 ∉ t)
    (hne : split_lines ((cstr t).filter kept) ≠ []) :
    split_lines ((cstr (format_text t)).filter kept) ≠ [] ∧
      format_text (format_text t) = format_text t := by
  have hsub : ∀ c ∈ (cstr t).filter kept, c ∈ t := fun c hc =>
    (List.takeWhile_subset _) (List.mem_of_mem_filter hc)
  have hz : ∀ c ∈ (cstr t).filter kept, c ≠ 0 := fun c hc =>
    cstr_ne_zero t c (List.mem_of_mem_filter hc)
  have hfacts : ∀ l ∈ split_lines ((cstr t).filter kept),
      58 ∉ l ∧ ends_tidy l ∧ 10 ∉ l := by
    intro l hl
    obtain ⟨h1, h2, h3⟩ := split_lines_facts _ l hl
    exact ⟨fun h => hcolon (hsub 58 (h3 58 h)), h1, h2⟩
  have hout0 : ∀ c ∈ format_text t, c ≠ 0 := by
    intro c hc
    rcases mem_formatted _ c hc with h | h | h | h | h
    · exact hz c h
    · simp only [isdigit, Bool.and_eq_true, decide_eq_true_eq] at h; omega
    · omega
    · omega
    · omega
  have hcs : cstr (format_text t) = format_text t := cstr_of_ne_zero hout0
  have hfil : (format_text t).filter kept = format_text t :=
    List.filter_eq_self.mpr (formatted_clean _)
  have hent : ∀ e ∈ entries_from 1 (split_lines ((cstr t).filter kept)),
      10 ∉ e ∧ trim e ≠ [] := by
    intro e he
    obtain ⟨k, hk, l, hl, rfl⟩ := mem_entries_from _ 1 (by decide) e he
    obtain ⟨h1, h2, h3⟩ := hfacts l hl
    refine ⟨fun h10 => ?_, (entry_fixed k hk l h1 h2).1⟩
    rcases mem_entry k hk l 10 h10 with h | h | h | h
    · exact absurd h (by decide)
    · exact absurd h (by decide)
    · exact absurd h (by decide)
    · exact h3 h
  have hsplit : split_lines ((cstr (format_text t)).filter kept)
      = (entries_from 1 (split_lines ((cstr t).filter kept))).map trim := by
    rw [hcs, hfil]
    unfold format_text
    rw [split_lines_intercalate _ (fun e he => (hent e he).1)]
    apply List.filter_eq_self.mpr
    intro x hx
    obtain ⟨e, he, rfl⟩ := List.mem_map.mp hx
    simpa using (hent e he).2
  constructor
  · rw [hsplit]
    obtain ⟨l, rest, hl⟩ := List.exists_cons_of_ne_nil hne
    rw [hl]
    simp [entries_from]
  · have h1 : format_text (format_text t)
        = List.intercalate (ascii "\n\n")
          (entries_from 1 (split_lines ((cstr (format_text t)).filter kept))) := rfl
    rw [h1, hsplit, entries_from_fixed _ 1 (by decide)
      (fun l hl => ⟨(hfacts l hl).1, (hfacts l hl).2.1⟩)]
    rfl

/-- C17: for a file without `:` on which the run with every call succeeding writes the text
`out`, the same run on a file that holds `out` accepts at least one line and writes `out`
again. -/
theorem format_idempotent (t out : List Nat) (hcolon : 58 ∉ t)
    (h : main (plain_env t) = ⟨0, some out⟩) :
    split_lines ((cstr out).filter (fun c => c != 42 && c != 34)) ≠ [] ∧
      main (plain_env out) = ⟨0, some out⟩ := by
  have hloop : all_succeed (plain_env t).loop_allocs := by
    intro b hb; simp [plain_env] at hb
  obtain ⟨hne, hout⟩ := main_written (plain_env t) out hloop h
  have hd : (plain_env t).data = t := rfl
  rw [hd] at hne hout
  have ho : out = format_text t := hout
  obtain ⟨h1, h2⟩ := format_text_fixed t hcolon hne
  rw [ho]
  exact ⟨h1, by rw [main_plain_env _ h1, h2]⟩

/-- C17 applied to the file `7. a\n\n *b`. -/
theorem format_idempotent_example :
    main (plain_env (ascii "1. a\n\n2. b")) = ⟨0, some (ascii "1. a\n\n2. b")⟩ :=
  (format_idempotent (ascii "7. a\n\n *b") (ascii "1. a\n\n2. b") (by decide) (by decide)).2

end ContentFormatter
